import Mathlib

/-!
# Verification of the socratic-logic core

A shallow embedding, in Lean 4, of the `socratic` Python package
(`socratic/op.py`, `socratic/theory.py`, `socratic/all_axioms.py`) and
proofs about the properties its specification claims.

Conventions used throughout:
* Python `float`/`Real` payloads are modelled by `ℚ`;
* Python strings are modelled by `String` (working internally on `List Char`);
* the external MILP solver (docplex) is modelled as an explicit function
  parameter mapping a built model to an optional solution;
* fallible operations return `Option`/`Except`.
-/

set_option maxHeartbeats 1600000

namespace Socratic

/-- The two t-norms supported by `socratic.op.Logic`. -/
inductive Logic where
  | GODEL
  | LUKASIEWICZ
deriving DecidableEq

/-- The formula AST of `socratic/op.py`.

Each Python class that can appear as a node of a formula tree becomes one
constructor.  `And`/`WeakAnd`/`Or`/`WeakOr` are variadic (a list of
operands); `Implies`/`Equiv` are binary; `Not`/`Inv`/`Delta`/`Nabla`/
`Coef`/`Exp` are unary.  The classes whose `__init__` accepts a `logic`
keyword (`And`, `Or`, `Implies`, `Equiv`, `Not`) carry an
`Option Logic`; the remaining operator classes always store
`logic = None` so the field is omitted. -/
inductive Formula where
  | prop (name : String)
  | const (val : ℚ)
  | and_ (ops : List Formula) (logic : Option Logic)
  | weakAnd (ops : List Formula)
  | or_ (ops : List Formula) (logic : Option Logic)
  | weakOr (ops : List Formula)
  | implies (lhs rhs : Formula) (logic : Option Logic)
  | equiv (lhs rhs : Formula) (logic : Option Logic)
  | not_ (arg : Formula) (logic : Option Logic)
  | inv (arg : Formula)
  | delta (arg : Formula)
  | nabla (arg : Formula)
  | coef (c : ℚ) (arg : Formula)
  | exp (e : ℚ) (arg : Formula)

mutual

/-- Structural equality of formulae, following the spec's definition:
same variant, element-wise equal operand sequence, same logic override
(and equal `Prop` names / numeric payloads). -/
def structEq : Formula → Formula → Bool
  | .prop a, .prop b => a == b
  | .const a, .const b => a == b
  | .and_ l1 g1, .and_ l2 g2 => structEqL l1 l2 && g1 == g2
  | .weakAnd l1, .weakAnd l2 => structEqL l1 l2
  | .or_ l1 g1, .or_ l2 g2 => structEqL l1 l2 && g1 == g2
  | .weakOr l1, .weakOr l2 => structEqL l1 l2
  | .implies a1 b1 g1, .implies a2 b2 g2 => structEq a1 a2 && structEq b1 b2 && g1 == g2
  | .equiv a1 b1 g1, .equiv a2 b2 g2 => structEq a1 a2 && structEq b1 b2 && g1 == g2
  | .not_ a1 g1, .not_ a2 g2 => structEq a1 a2 && g1 == g2
  | .inv a1, .inv a2 => structEq a1 a2
  | .delta a1, .delta a2 => structEq a1 a2
  | .nabla a1, .nabla a2 => structEq a1 a2
  | .coef c1 a1, .coef c2 a2 => c1 == c2 && structEq a1 a2
  | .exp e1 a1, .exp e2 a2 => e1 == e2 && structEq a1 a2
  | _, _ => false

/-- Element-wise structural equality of operand sequences. -/
def structEqL : List Formula → List Formula → Bool
  | [], [] => true
  | x :: xs, y :: ys => structEq x y && structEqL xs ys
  | _, _ => false

end

mutual

theorem structEq_iff : ∀ f g : Formula, structEq f g = true ↔ f = g
  | .prop a, .prop b => by simp [structEq]
  | .const a, .const b => by simp [structEq]
  | .and_ l1 g1, .and_ l2 g2 => by
      simp [structEq, structEqL_iff l1 l2]
  | .weakAnd l1, .weakAnd l2 => by simp [structEq, structEqL_iff l1 l2]
  | .or_ l1 g1, .or_ l2 g2 => by simp [structEq, structEqL_iff l1 l2]
  | .weakOr l1, .weakOr l2 => by simp [structEq, structEqL_iff l1 l2]
  | .implies a1 b1 g1, .implies a2 b2 g2 => by
      simp [structEq, structEq_iff a1 a2, structEq_iff b1 b2, and_assoc]
  | .equiv a1 b1 g1, .equiv a2 b2 g2 => by
      simp [structEq, structEq_iff a1 a2, structEq_iff b1 b2, and_assoc]
  | .not_ a1 g1, .not_ a2 g2 => by simp [structEq, structEq_iff a1 a2]
  | .inv a1, .inv a2 => by simp [structEq, structEq_iff a1 a2]
  | .delta a1, .delta a2 => by simp [structEq, structEq_iff a1 a2]
  | .nabla a1, .nabla a2 => by simp [structEq, structEq_iff a1 a2]
  | .coef c1 a1, .coef c2 a2 => by simp [structEq, structEq_iff a1 a2]
  | .exp e1 a1, .exp e2 a2 => by simp [structEq, structEq_iff a1 a2]
  | .prop _, .const _ => by simp [structEq]
  | .prop _, .and_ _ _ => by simp [structEq]
  | .prop _, .weakAnd _ => by simp [structEq]
  | .prop _, .or_ _ _ => by simp [structEq]
  | .prop _, .weakOr _ => by simp [structEq]
  | .prop _, .implies _ _ _ => by simp [structEq]
  | .prop _, .equiv _ _ _ => by simp [structEq]
  | .prop _, .not_ _ _ => by simp [structEq]
  | .prop _, .inv _ => by simp [structEq]
  | .prop _, .delta _ => by simp [structEq]
  | .prop _, .nabla _ => by simp [structEq]
  | .prop _, .coef _ _ => by simp [structEq]
  | .prop _, .exp _ _ => by simp [structEq]
  | .const _, .prop _ => by simp [structEq]
  | .const _, .and_ _ _ => by simp [structEq]
  | .const _, .weakAnd _ => by simp [structEq]
  | .const _, .or_ _ _ => by simp [structEq]
  | .const _, .weakOr _ => by simp [structEq]
  | .const _, .implies _ _ _ => by simp [structEq]
  | .const _, .equiv _ _ _ => by simp [structEq]
  | .const _, .not_ _ _ => by simp [structEq]
  | .const _, .inv _ => by simp [structEq]
  | .const _, .delta _ => by simp [structEq]
  | .const _, .nabla _ => by simp [structEq]
  | .const _, .coef _ _ => by simp [structEq]
  | .const _, .exp _ _ => by simp [structEq]
  | .and_ _ _, .prop _ => by simp [structEq]
  | .and_ _ _, .const _ => by simp [structEq]
  | .and_ _ _, .weakAnd _ => by simp [structEq]
  | .and_ _ _, .or_ _ _ => by simp [structEq]
  | .and_ _ _, .weakOr _ => by simp [structEq]
  | .and_ _ _, .implies _ _ _ => by simp [structEq]
  | .and_ _ _, .equiv _ _ _ => by simp [structEq]
  | .and_ _ _, .not_ _ _ => by simp [structEq]
  | .and_ _ _, .inv _ => by simp [structEq]
  | .and_ _ _, .delta _ => by simp [structEq]
  | .and_ _ _, .nabla _ => by simp [structEq]
  | .and_ _ _, .coef _ _ => by simp [structEq]
  | .and_ _ _, .exp _ _ => by simp [structEq]
  | .weakAnd _, .prop _ => by simp [structEq]
  | .weakAnd _, .const _ => by simp [structEq]
  | .weakAnd _, .and_ _ _ => by simp [structEq]
  | .weakAnd _, .or_ _ _ => by simp [structEq]
  | .weakAnd _, .weakOr _ => by simp [structEq]
  | .weakAnd _, .implies _ _ _ => by simp [structEq]
  | .weakAnd _, .equiv _ _ _ => by simp [structEq]
  | .weakAnd _, .not_ _ _ => by simp [structEq]
  | .weakAnd _, .inv _ => by simp [structEq]
  | .weakAnd _, .delta _ => by simp [structEq]
  | .weakAnd _, .nabla _ => by simp [structEq]
  | .weakAnd _, .coef _ _ => by simp [structEq]
  | .weakAnd _, .exp _ _ => by simp [structEq]
  | .or_ _ _, .prop _ => by simp [structEq]
  | .or_ _ _, .const _ => by simp [structEq]
  | .or_ _ _, .and_ _ _ => by simp [structEq]
  | .or_ _ _, .weakAnd _ => by simp [structEq]
  | .or_ _ _, .weakOr _ => by simp [structEq]
  | .or_ _ _, .implies _ _ _ => by simp [structEq]
  | .or_ _ _, .equiv _ _ _ => by simp [structEq]
  | .or_ _ _, .not_ _ _ => by simp [structEq]
  | .or_ _ _, .inv _ => by simp [structEq]
  | .or_ _ _, .delta _ => by simp [structEq]
  | .or_ _ _, .nabla _ => by simp [structEq]
  | .or_ _ _, .coef _ _ => by simp [structEq]
  | .or_ _ _, .exp _ _ => by simp [structEq]
  | .weakOr _, .prop _ => by simp [structEq]
  | .weakOr _, .const _ => by simp [structEq]
  | .weakOr _, .and_ _ _ => by simp [structEq]
  | .weakOr _, .weakAnd _ => by simp [structEq]
  | .weakOr _, .or_ _ _ => by simp [structEq]
  | .weakOr _, .implies _ _ _ => by simp [structEq]
  | .weakOr _, .equiv _ _ _ => by simp [structEq]
  | .weakOr _, .not_ _ _ => by simp [structEq]
  | .weakOr _, .inv _ => by simp [structEq]
  | .weakOr _, .delta _ => by simp [structEq]
  | .weakOr _, .nabla _ => by simp [structEq]
  | .weakOr _, .coef _ _ => by simp [structEq]
  | .weakOr _, .exp _ _ => by simp [structEq]
  | .implies _ _ _, .prop _ => by simp [structEq]
  | .implies _ _ _, .const _ => by simp [structEq]
  | .implies _ _ _, .and_ _ _ => by simp [structEq]
  | .implies _ _ _, .weakAnd _ => by simp [structEq]
  | .implies _ _ _, .or_ _ _ => by simp [structEq]
  | .implies _ _ _, .weakOr _ => by simp [structEq]
  | .implies _ _ _, .equiv _ _ _ => by simp [structEq]
  | .implies _ _ _, .not_ _ _ => by simp [structEq]
  | .implies _ _ _, .inv _ => by simp [structEq]
  | .implies _ _ _, .delta _ => by simp [structEq]
  | .implies _ _ _, .nabla _ => by simp [structEq]
  | .implies _ _ _, .coef _ _ => by simp [structEq]
  | .implies _ _ _, .exp _ _ => by simp [structEq]
  | .equiv _ _ _, .prop _ => by simp [structEq]
  | .equiv _ _ _, .const _ => by simp [structEq]
  | .equiv _ _ _, .and_ _ _ => by simp [structEq]
  | .equiv _ _ _, .weakAnd _ => by simp [structEq]
  | .equiv _ _ _, .or_ _ _ => by simp [structEq]
  | .equiv _ _ _, .weakOr _ => by simp [structEq]
  | .equiv _ _ _, .implies _ _ _ => by simp [structEq]
  | .equiv _ _ _, .not_ _ _ => by simp [structEq]
  | .equiv _ _ _, .inv _ => by simp [structEq]
  | .equiv _ _ _, .delta _ => by simp [structEq]
  | .equiv _ _ _, .nabla _ => by simp [structEq]
  | .equiv _ _ _, .coef _ _ => by simp [structEq]
  | .equiv _ _ _, .exp _ _ => by simp [structEq]
  | .not_ _ _, .prop _ => by simp [structEq]
  | .not_ _ _, .const _ => by simp [structEq]
  | .not_ _ _, .and_ _ _ => by simp [structEq]
  | .not_ _ _, .weakAnd _ => by simp [structEq]
  | .not_ _ _, .or_ _ _ => by simp [structEq]
  | .not_ _ _, .weakOr _ => by simp [structEq]
  | .not_ _ _, .implies _ _ _ => by simp [structEq]
  | .not_ _ _, .equiv _ _ _ => by simp [structEq]
  | .not_ _ _, .inv _ => by simp [structEq]
  | .not_ _ _, .delta _ => by simp [structEq]
  | .not_ _ _, .nabla _ => by simp [structEq]
  | .not_ _ _, .coef _ _ => by simp [structEq]
  | .not_ _ _, .exp _ _ => by simp [structEq]
  | .inv _, .prop _ => by simp [structEq]
  | .inv _, .const _ => by simp [structEq]
  | .inv _, .and_ _ _ => by simp [structEq]
  | .inv _, .weakAnd _ => by simp [structEq]
  | .inv _, .or_ _ _ => by simp [structEq]
  | .inv _, .weakOr _ => by simp [structEq]
  | .inv _, .implies _ _ _ => by simp [structEq]
  | .inv _, .equiv _ _ _ => by simp [structEq]
  | .inv _, .not_ _ _ => by simp [structEq]
  | .inv _, .delta _ => by simp [structEq]
  | .inv _, .nabla _ => by simp [structEq]
  | .inv _, .coef _ _ => by simp [structEq]
  | .inv _, .exp _ _ => by simp [structEq]
  | .delta _, .prop _ => by simp [structEq]
  | .delta _, .const _ => by simp [structEq]
  | .delta _, .and_ _ _ => by simp [structEq]
  | .delta _, .weakAnd _ => by simp [structEq]
  | .delta _, .or_ _ _ => by simp [structEq]
  | .delta _, .weakOr _ => by simp [structEq]
  | .delta _, .implies _ _ _ => by simp [structEq]
  | .delta _, .equiv _ _ _ => by simp [structEq]
  | .delta _, .not_ _ _ => by simp [structEq]
  | .delta _, .inv _ => by simp [structEq]
  | .delta _, .nabla _ => by simp [structEq]
  | .delta _, .coef _ _ => by simp [structEq]
  | .delta _, .exp _ _ => by simp [structEq]
  | .nabla _, .prop _ => by simp [structEq]
  | .nabla _, .const _ => by simp [structEq]
  | .nabla _, .and_ _ _ => by simp [structEq]
  | .nabla _, .weakAnd _ => by simp [structEq]
  | .nabla _, .or_ _ _ => by simp [structEq]
  | .nabla _, .weakOr _ => by simp [structEq]
  | .nabla _, .implies _ _ _ => by simp [structEq]
  | .nabla _, .equiv _ _ _ => by simp [structEq]
  | .nabla _, .not_ _ _ => by simp [structEq]
  | .nabla _, .inv _ => by simp [structEq]
  | .nabla _, .delta _ => by simp [structEq]
  | .nabla _, .coef _ _ => by simp [structEq]
  | .nabla _, .exp _ _ => by simp [structEq]
  | .coef _ _, .prop _ => by simp [structEq]
  | .coef _ _, .const _ => by simp [structEq]
  | .coef _ _, .and_ _ _ => by simp [structEq]
  | .coef _ _, .weakAnd _ => by simp [structEq]
  | .coef _ _, .or_ _ _ => by simp [structEq]
  | .coef _ _, .weakOr _ => by simp [structEq]
  | .coef _ _, .implies _ _ _ => by simp [structEq]
  | .coef _ _, .equiv _ _ _ => by simp [structEq]
  | .coef _ _, .not_ _ _ => by simp [structEq]
  | .coef _ _, .inv _ => by simp [structEq]
  | .coef _ _, .delta _ => by simp [structEq]
  | .coef _ _, .nabla _ => by simp [structEq]
  | .coef _ _, .exp _ _ => by simp [structEq]
  | .exp _ _, .prop _ => by simp [structEq]
  | .exp _ _, .const _ => by simp [structEq]
  | .exp _ _, .and_ _ _ => by simp [structEq]
  | .exp _ _, .weakAnd _ => by simp [structEq]
  | .exp _ _, .or_ _ _ => by simp [structEq]
  | .exp _ _, .weakOr _ => by simp [structEq]
  | .exp _ _, .implies _ _ _ => by simp [structEq]
  | .exp _ _, .equiv _ _ _ => by simp [structEq]
  | .exp _ _, .not_ _ _ => by simp [structEq]
  | .exp _ _, .inv _ => by simp [structEq]
  | .exp _ _, .delta _ => by simp [structEq]
  | .exp _ _, .nabla _ => by simp [structEq]
  | .exp _ _, .coef _ _ => by simp [structEq]

theorem structEqL_iff : ∀ l m : List Formula, structEqL l m = true ↔ l = m
  | [], [] => by simp [structEqL]
  | [], _ :: _ => by simp [structEqL]
  | _ :: _, [] => by simp [structEqL]
  | x :: xs, y :: ys => by
      simp [structEqL, structEq_iff x y, structEqL_iff xs ys]

end

instance : DecidableEq Formula := fun f g =>
  decidable_of_iff (structEq f g = true) (structEq_iff f g)


/-! ## Decimal numerals

Executable printing and parsing of `Nat`/`Int`/`ℚ` payloads, with
round-trip lemmas.  These model the decimal representations Python's
`repr` emits for the numeric payloads of `Const`, `Coef` and `Exp` and
for the indices in generated proposition names `p0`, `p1`, …. -/

/-- The character for a single decimal digit. -/
def digitCh (d : Nat) : Char := Char.ofNat (48 + d)

/-- Little-endian decimal digits of `n`, with explicit fuel
(`fuel ≥ n` suffices). -/
def natDigitsRev : Nat → Nat → List Nat
  | 0, _ => []
  | fuel + 1, n => if n = 0 then [] else n % 10 :: natDigitsRev fuel (n / 10)

/-- Decimal representation of a natural number, as characters. -/
def natChars (n : Nat) : List Char :=
  if n = 0 then ['0'] else ((natDigitsRev n n).reverse.map digitCh)

/-- Value of a little-endian digit list. -/
def valDigitsRev (l : List Nat) : Nat := l.foldr (fun d acc => d + 10 * acc) 0

theorem valDigitsRev_natDigitsRev :
    ∀ fuel n, n ≤ fuel → valDigitsRev (natDigitsRev fuel n) = n := by
  intro fuel
  induction fuel with
  | zero => intro n h; interval_cases n; simp [natDigitsRev, valDigitsRev]
  | succ fuel ih =>
      intro n h
      by_cases h0 : n = 0
      · simp [natDigitsRev, h0, valDigitsRev]
      · have hdiv : n / 10 ≤ fuel := by
          have : n / 10 < n := Nat.div_lt_self (Nat.pos_of_ne_zero h0) (by norm_num)
          omega
        simp only [natDigitsRev, h0, if_false, valDigitsRev, List.foldr_cons]
        have := ih (n / 10) hdiv
        simp only [valDigitsRev] at this
        rw [this]
        omega

theorem natDigitsRev_lt_ten :
    ∀ fuel n d, d ∈ natDigitsRev fuel n → d < 10 := by
  intro fuel
  induction fuel with
  | zero => intro n d h; simp [natDigitsRev] at h
  | succ fuel ih =>
      intro n d h
      by_cases h0 : n = 0
      · simp [natDigitsRev, h0] at h
      · simp only [natDigitsRev, h0, if_false, List.mem_cons] at h
        rcases h with h | h
        · subst h; exact Nat.mod_lt _ (by norm_num)
        · exact ih _ _ h

theorem natDigitsRev_ne_nil (fuel n : Nat) (h0 : n ≠ 0) (hf : n ≤ fuel) :
    natDigitsRev fuel n ≠ [] := by
  cases fuel with
  | zero => omega
  | succ fuel => simp [natDigitsRev, h0]

/-- Is `c` a decimal-digit character? -/
def isDigitCh (c : Char) : Bool := 48 ≤ c.toNat && c.toNat ≤ 57

/-- The numeric value of a digit character. -/
def digitVal (c : Char) : Nat := c.toNat - 48

theorem digitCh_isDigit (d : Nat) (h : d < 10) : isDigitCh (digitCh d) = true := by
  interval_cases d <;> decide

theorem digitVal_digitCh (d : Nat) (h : d < 10) : digitVal (digitCh d) = d := by
  interval_cases d <;> decide

/-- Parse a nonempty run of decimal digits at the front of `cs`. -/
def parseNat (cs : List Char) : Option (Nat × List Char) :=
  let ds := cs.takeWhile isDigitCh
  if ds.isEmpty then none
  else some (ds.foldl (fun acc c => 10 * acc + digitVal c) 0, cs.dropWhile isDigitCh)

theorem takeWhile_append_all {p : Char → Bool} :
    ∀ (l rest : List Char), (∀ c ∈ l, p c = true) →
      (∀ c, rest.head? = some c → p c = false) →
      (l ++ rest).takeWhile p = l ∧ (l ++ rest).dropWhile p = rest := by
  intro l
  induction l with
  | nil =>
      intro rest _ hrest
      cases rest with
      | nil => simp
      | cons c cs =>
          have := hrest c rfl
          simp [List.takeWhile, List.dropWhile, this]
  | cons x xs ih =>
      intro rest hl hrest
      have hx : p x = true := hl x (by simp)
      have := ih rest (fun c hc => hl c (by simp [hc])) hrest
      simp [List.takeWhile, List.dropWhile, hx, this.1, this.2]

theorem foldl_digits_eq_val :
    ∀ (l : List Nat), (∀ d ∈ l, d < 10) →
      ((l.reverse.map digitCh).foldl (fun acc c => 10 * acc + digitVal c) 0)
        = valDigitsRev l := by
  -- generalize over the accumulator
  suffices h : ∀ (l : List Nat) (acc : Nat), (∀ d ∈ l, d < 10) →
      ((l.reverse.map digitCh).foldl (fun acc c => 10 * acc + digitVal c) acc)
        = acc * 10 ^ l.length + valDigitsRev l by
    intro l hl
    have := h l 0 hl
    simpa using this
  intro l
  induction l with
  | nil => intro acc _; simp [valDigitsRev]
  | cons d ds ih =>
      intro acc hl
      have hd : d < 10 := hl d (by simp)
      have hds : ∀ x ∈ ds, x < 10 := fun x hx => hl x (by simp [hx])
      simp only [List.reverse_cons, List.map_append, List.map_cons, List.map_nil,
        List.foldl_append, List.foldl_cons, List.foldl_nil]
      rw [ih acc hds]
      simp only [valDigitsRev, List.foldr_cons, List.length_cons,
        digitVal_digitCh d hd]
      ring


theorem natChars_head_digit (m : Nat) :
    ∃ c cs, natChars m = c :: cs ∧ isDigitCh c = true := by
  by_cases hm : m = 0
  · exact ⟨'0', [], by simp [natChars, hm], by decide⟩
  · obtain ⟨d, ds, hds⟩ : ∃ d ds, (natDigitsRev m m).reverse.map digitCh = d :: ds := by
      have hne : (natDigitsRev m m).reverse.map digitCh ≠ [] := by
        intro hcon
        have h2 := natDigitsRev_ne_nil m m hm le_rfl
        rw [List.map_eq_nil_iff, List.reverse_eq_nil_iff] at hcon
        exact h2 hcon
      cases hl : (natDigitsRev m m).reverse.map digitCh with
      | nil => exact absurd hl hne
      | cons d ds => exact ⟨d, ds, rfl⟩
    refine ⟨d, ds, by simp [natChars, hm, hds], ?_⟩
    have hmem : d ∈ (natDigitsRev m m).reverse.map digitCh := by simp [hds]
    simp only [List.mem_map, List.mem_reverse] at hmem
    obtain ⟨x, hx, rfl⟩ := hmem
    exact digitCh_isDigit x (natDigitsRev_lt_ten m m x hx)

theorem parseNat_natChars (n : Nat) (rest : List Char)
    (hrest : ∀ c, rest.head? = some c → isDigitCh c = false) :
    parseNat (natChars n ++ rest) = some (n, rest) := by
  by_cases h0 : n = 0
  · subst h0
    have htw := takeWhile_append_all (p := isDigitCh) ['0'] rest (by decide) hrest
    have h1 : natChars 0 ++ rest = ['0'] ++ rest := by simp [natChars]
    rw [h1, parseNat]
    simp only [htw.1, htw.2]
    simp [digitVal]
  · have hdig : ∀ c ∈ (natDigitsRev n n).reverse.map digitCh, isDigitCh c = true := by
      intro c hc
      simp only [List.mem_map, List.mem_reverse] at hc
      obtain ⟨d, hd, rfl⟩ := hc
      exact digitCh_isDigit d (natDigitsRev_lt_ten n n d hd)
    have htw := takeWhile_append_all (p := isDigitCh)
      ((natDigitsRev n n).reverse.map digitCh) rest hdig hrest
    have h1 : natChars n ++ rest = ((natDigitsRev n n).reverse.map digitCh) ++ rest := by
      simp [natChars, h0]
    rw [h1, parseNat]
    simp only [htw.1, htw.2]
    have hne : (natDigitsRev n n).reverse.map digitCh ≠ [] := by
      intro hcon
      have h2 := natDigitsRev_ne_nil n n h0 le_rfl
      rw [List.map_eq_nil_iff, List.reverse_eq_nil_iff] at hcon
      exact h2 hcon
    rw [if_neg (by simpa [List.isEmpty_iff] using hne)]
    rw [foldl_digits_eq_val _ (fun d hd => natDigitsRev_lt_ten n n d hd)]
    rw [valDigitsRev_natDigitsRev n n le_rfl]

/-- Decimal representation of an integer, as characters. -/
def intChars (i : Int) : List Char :=
  if i < 0 then '-' :: natChars i.natAbs else natChars i.toNat

/-- Parse an optionally-negated decimal integer. -/
def parseInt (cs : List Char) : Option (Int × List Char) :=
  if cs.head? = some '-' then
    (parseNat cs.tail).map (fun p => (-(p.1 : Int), p.2))
  else
    (parseNat cs).map (fun p => ((p.1 : Int), p.2))

theorem parseInt_intChars (i : Int) (rest : List Char)
    (hrest : ∀ c, rest.head? = some c → isDigitCh c = false) :
    parseInt (intChars i ++ rest) = some (i, rest) := by
  by_cases hneg : i < 0
  · have h1 : intChars i ++ rest = '-' :: (natChars i.natAbs ++ rest) := by
      simp [intChars, hneg]
    rw [h1, parseInt]
    rw [if_pos (by simp)]
    simp only [List.tail_cons]
    rw [parseNat_natChars i.natAbs rest hrest]
    simp only [Option.map_some']
    simp only [Option.some.injEq, Prod.mk.injEq, and_true]
    omega
  · obtain ⟨c, cs, hcs, hc⟩ := natChars_head_digit i.toNat
    have h1 : intChars i ++ rest = c :: (cs ++ rest) := by
      simp [intChars, hneg, hcs]
    have hcne : c ≠ '-' := by
      intro hcon; subst hcon; simp [isDigitCh] at hc
    rw [h1, parseInt]
    rw [if_neg (by simp [hcne])]
    rw [show c :: (cs ++ rest) = natChars i.toNat ++ rest by simp [hcs]]
    rw [parseNat_natChars i.toNat rest hrest]
    simp only [Option.map_some']
    simp only [Option.some.injEq, Prod.mk.injEq, and_true]
    omega

/-- Representation of a rational payload: the integer numerator, then
`/denominator` when the denominator is not 1. -/
def ratChars (q : ℚ) : List Char :=
  intChars q.num ++ (if q.den = 1 then [] else '/' :: natChars q.den)

/-- Parse a rational: an integer, optionally followed by `/` and a
denominator. -/
def parseRat (cs : List Char) : Option (ℚ × List Char) :=
  (parseInt cs).bind fun p =>
    if p.2.head? = some '/' then
      (parseNat p.2.tail).map (fun q => ((p.1 : ℚ) / (q.1 : ℚ), q.2))
    else some ((p.1 : ℚ), p.2)

theorem parseRat_ratChars (q : ℚ) (rest : List Char)
    (hrest : ∀ c, rest.head? = some c → isDigitCh c = false ∧ c ≠ '/') :
    parseRat (ratChars q ++ rest) = some (q, rest) := by
  by_cases hden : q.den = 1
  · have h1 : ratChars q ++ rest = intChars q.num ++ rest := by
      simp [ratChars, hden]
    rw [h1, parseRat, parseInt_intChars q.num rest (fun c hc => (hrest c hc).1)]
    simp only [Option.some_bind]
    have hq : (q.num : ℚ) = q := by
      conv_rhs => rw [← Rat.num_div_den q]
      rw [hden]; simp
    rw [if_neg ?hslash]
    · simp [hq]
    case hslash =>
      intro hcon
      cases hr : rest with
      | nil => rw [hr] at hcon; simp at hcon
      | cons c cs =>
          rw [hr] at hcon
          simp only [List.head?_cons, Option.some.injEq] at hcon
          exact (hrest c (by simp [hr])).2 hcon
  · have h1 : ratChars q ++ rest
        = intChars q.num ++ ('/' :: (natChars q.den ++ rest)) := by
      simp [ratChars, hden]
    rw [h1, parseRat, parseInt_intChars q.num ('/' :: (natChars q.den ++ rest))
      (by intro c hc; simp only [List.head?_cons, Option.some.injEq] at hc
          subst hc; decide)]
    simp only [Option.some_bind]
    rw [if_pos (by simp)]
    simp only [List.tail_cons]
    rw [parseNat_natChars q.den rest (fun c hc => (hrest c hc).1)]
    simp only [Option.map_some']
    simp only [Option.some.injEq, Prod.mk.injEq, and_true]
    exact Rat.num_div_den q

/-! ## Python string literals

`Prop.__repr__` embeds the proposition name via Python's `repr` of a
`str`.  We model the part of that encoding canonical-name uniqueness
relies on: quote selection (single quotes unless the string contains a
single quote and no double quote) and escaping of the backslash, the
active quote, and the common control characters.  (CPython additionally
escapes non-printable characters; that is an injective refinement of the
same scheme and does not affect any property proved here.) -/

/-- The quote character Python's `repr` selects for a string. -/
def strQuote (s : List Char) : Char :=
  if s.contains '\'' && !s.contains '"' then '"' else '\''

/-- Escape one character of a string literal body, given the active
quote `q`. -/
def escChar (q c : Char) : List Char :=
  if c = '\\' then ['\\', '\\']
  else if c = q then ['\\', q]
  else if c = '\n' then ['\\', 'n']
  else if c = '\r' then ['\\', 'r']
  else if c = '\t' then ['\\', 't']
  else [c]

/-- Python `repr` of a string: active quote, escaped body, active
quote. -/
def pyStrRepr (s : List Char) : List Char :=
  let q := strQuote s
  q :: (s.flatMap (escChar q) ++ [q])

/-- Decode one escape character (the character after a backslash). -/
def unescChar (q e : Char) : Option Char :=
  if e = '\\' then some '\\'
  else if e = q then some q
  else if e = 'n' then some '\n'
  else if e = 'r' then some '\r'
  else if e = 't' then some '\t'
  else none

/-- Parse the body of a string literal up to and including the closing
quote `q`. -/
def parseStrBody (q : Char) : List Char → Option (List Char × List Char)
  | [] => none
  | c :: cs =>
    if c = q then some ([], cs)
    else if c = '\\' then
      match cs with
      | [] => none
      | e :: cs' =>
        (unescChar q e).bind fun d =>
          (parseStrBody q cs').map fun p => (d :: p.1, p.2)
    else
      (parseStrBody q cs).map fun p => (c :: p.1, p.2)

/-- Parse a quoted Python string literal. -/
def parseQuoted (cs : List Char) : Option (List Char × List Char) :=
  match cs with
  | [] => none
  | q :: cs' =>
    if q = '\'' ∨ q = '"' then parseStrBody q cs' else none


theorem parseStrBody_quote (q : Char) (rest : List Char) :
    parseStrBody q (q :: rest) = some ([], rest) := by
  rw [parseStrBody.eq_def]; simp

theorem parseStrBody_esc (q c : Char) (hq : q = '\'' ∨ q = '"') (tl : List Char) :
    parseStrBody q (escChar q c ++ tl)
      = (parseStrBody q tl).map fun p => (c :: p.1, p.2) := by
  have hqb : q ≠ '\\' := by rcases hq with h | h <;> subst h <;> decide
  have hqn : q ≠ 'n' := by rcases hq with h | h <;> subst h <;> decide
  have hqr : q ≠ 'r' := by rcases hq with h | h <;> subst h <;> decide
  have hqt : q ≠ 't' := by rcases hq with h | h <;> subst h <;> decide
  by_cases h1 : c = '\\'
  · subst h1
    simp only [escChar, if_pos rfl, List.cons_append, List.nil_append]
    rw [parseStrBody.eq_def]
    simp [Ne.symm hqb, unescChar]
  · by_cases h2 : c = q
    · subst h2
      simp only [escChar, if_neg h1, if_pos rfl, List.cons_append, List.nil_append]
      rw [parseStrBody.eq_def]
      simp [Ne.symm hqb, hqb, unescChar, h1]
    · by_cases h3 : c = '\n'
      · subst h3
        simp only [escChar, if_neg h1, if_neg h2, if_pos rfl, List.cons_append,
          List.nil_append]
        rw [parseStrBody.eq_def]
        simp [unescChar, Ne.symm hqb, Ne.symm hqn, hqn]
      · by_cases h4 : c = '\r'
        · subst h4
          simp only [escChar, if_neg h1, if_neg h2, if_neg h3, if_pos rfl,
            List.cons_append, List.nil_append]
          rw [parseStrBody.eq_def]
          simp [unescChar, Ne.symm hqb, Ne.symm hqr, hqr]
        · by_cases h5 : c = '\t'
          · subst h5
            simp only [escChar, if_neg h1, if_neg h2, if_neg h3, if_neg h4,
              if_pos rfl, List.cons_append, List.nil_append]
            rw [parseStrBody.eq_def]
            simp [unescChar, Ne.symm hqb, Ne.symm hqt, hqt]
          · simp only [escChar, if_neg h1, if_neg h2, if_neg h3, if_neg h4,
              if_neg h5, List.singleton_append]
            rw [parseStrBody.eq_def]
            simp [h1, h2]

theorem parseStrBody_roundtrip (q : Char) (hq : q = '\'' ∨ q = '"') :
    ∀ (s rest : List Char),
      parseStrBody q (s.flatMap (escChar q) ++ [q] ++ rest) = some (s, rest) := by
  intro s
  induction s with
  | nil =>
      intro rest
      simpa using parseStrBody_quote q rest
  | cons c cs ih =>
      intro rest
      rw [List.flatMap_cons, List.append_assoc, List.append_assoc,
        parseStrBody_esc q c hq, ← List.append_assoc, ih rest]
      rfl

theorem parseQuoted_pyStrRepr (s rest : List Char) :
    parseQuoted (pyStrRepr s ++ rest) = some (s, rest) := by
  have hq : strQuote s = '\'' ∨ strQuote s = '"' := by
    unfold strQuote
    split <;> simp
  simp only [pyStrRepr, List.cons_append, parseQuoted]
  rw [if_pos hq]
  exact parseStrBody_roundtrip (strQuote s) hq s rest

/-! ## Canonical names (`__repr__`)

`Operator.__repr__` emits `ClassName(operand reprs joined by ", "
[, logic=Logic.X])`; `Prop`/`Const` emit their payload; `Coef`/`Exp`
emit the scalar payload first.  This is the canonical name used to key
MILP variables and constraints. -/

/-- `str(Logic.X)` as interpolated into an operator repr. -/
def logicStr : Logic → List Char
  | .GODEL => "logic=Logic.GODEL".data
  | .LUKASIEWICZ => "logic=Logic.LUKASIEWICZ".data

/-- The optional trailing `logic=...` argument of an operator repr. -/
def logicArg : Option Logic → List (List Char)
  | none => []
  | some g => [logicStr g]

/-- `", ".join(...)` of Python. -/
def joinArgs : List (List Char) → List Char
  | [] => []
  | [x] => x
  | x :: y :: rest => x ++ ", ".data ++ joinArgs (y :: rest)

mutual

/-- The canonical name (`repr`) of a formula, as a character list,
mirroring `Formula.__repr__`/`Operator.__repr__` for acyclic formulae
(cyclic graphs are treated separately). -/
def reprF : Formula → List Char
  | .prop n => "Prop(".data ++ pyStrRepr n.data ++ ")".data
  | .const v => "Const(".data ++ ratChars v ++ ")".data
  | .and_ l lg => "And(".data ++ joinArgs (reprMap l ++ logicArg lg) ++ ")".data
  | .weakAnd l => "WeakAnd(".data ++ joinArgs (reprMap l) ++ ")".data
  | .or_ l lg => "Or(".data ++ joinArgs (reprMap l ++ logicArg lg) ++ ")".data
  | .weakOr l => "WeakOr(".data ++ joinArgs (reprMap l) ++ ")".data
  | .implies a b lg =>
      "Implies(".data ++ joinArgs ([reprF a, reprF b] ++ logicArg lg) ++ ")".data
  | .equiv a b lg =>
      "Equiv(".data ++ joinArgs ([reprF a, reprF b] ++ logicArg lg) ++ ")".data
  | .not_ a lg => "Not(".data ++ joinArgs ([reprF a] ++ logicArg lg) ++ ")".data
  | .inv a => "Inv(".data ++ reprF a ++ ")".data
  | .delta a => "Delta(".data ++ reprF a ++ ")".data
  | .nabla a => "Nabla(".data ++ reprF a ++ ")".data
  | .coef c a => "Coef(".data ++ ratChars c ++ ", ".data ++ reprF a ++ ")".data
  | .exp e a => "Exp(".data ++ ratChars e ++ ", ".data ++ reprF a ++ ")".data

/-- `reprF` mapped over an operand list. -/
def reprMap : List Formula → List (List Char)
  | [] => []
  | f :: fs => reprF f :: reprMap fs

end

/-- The canonical name of a formula as a `String`. -/
def reprStr (f : Formula) : String := ⟨reprF f⟩

/-! ## A verified parser for canonical names

To show that canonical names identify formulae up to structural
equality (the "round-trip" law), we give an executable parser and prove
it inverts `reprF`. -/

/-- Is `c` an ASCII letter? -/
def isAlphaCh (c : Char) : Bool :=
  (65 ≤ c.toNat && c.toNat ≤ 90) || (97 ≤ c.toNat && c.toNat ≤ 122)

/-- Expect the literal `pat` at the front of `cs`. -/
def expectS (pat cs : List Char) : Option (List Char) :=
  if cs.take pat.length = pat then some (cs.drop pat.length) else none

theorem expectS_append (pat rest : List Char) :
    expectS pat (pat ++ rest) = some rest := by
  simp [expectS]

theorem expectS_cons_ne (p : Char) (pat : List Char) (c : Char) (cs : List Char)
    (h : c ≠ p) : expectS (p :: pat) (c :: cs) = none := by
  simp only [expectS, List.length_cons, List.take_succ_cons]
  rw [if_neg]
  intro hcon
  exact h ((List.cons.injEq _ _ _ _).mp hcon).1

/-- Parse a trailing `logic=Logic.X` argument. -/
def parseLogicArg (cs : List Char) : Option (Logic × List Char) :=
  match expectS "logic=Logic.GODEL".data cs with
  | some r => some (.GODEL, r)
  | none =>
    match expectS "logic=Logic.LUKASIEWICZ".data cs with
    | some r => some (.LUKASIEWICZ, r)
    | none => none

/-- Build an operator node from a parsed class name, operand list and
logic argument. -/
def mkOp (name : List Char) (args : List Formula) (lg : Option Logic) :
    Option Formula :=
  if name = "And".data then some (.and_ args lg)
  else if name = "WeakAnd".data then
    match lg with | none => some (.weakAnd args) | some _ => none
  else if name = "Or".data then some (.or_ args lg)
  else if name = "WeakOr".data then
    match lg with | none => some (.weakOr args) | some _ => none
  else if name = "Implies".data then
    match args with | [a, b] => some (.implies a b lg) | _ => none
  else if name = "Equiv".data then
    match args with | [a, b] => some (.equiv a b lg) | _ => none
  else if name = "Not".data then
    match args with | [a] => some (.not_ a lg) | _ => none
  else if name = "Inv".data then
    match args, lg with | [a], none => some (.inv a) | _, _ => none
  else if name = "Delta".data then
    match args, lg with | [a], none => some (.delta a) | _, _ => none
  else if name = "Nabla".data then
    match args, lg with | [a], none => some (.nabla a) | _, _ => none
  else none

mutual

/-- Parse one canonical formula name from the front of the input. -/
def parseFormula : Nat → List Char → Option (Formula × List Char)
  | 0, _ => none
  | fuel + 1, cs =>
    parseDispatch fuel (cs.takeWhile isAlphaCh) (cs.dropWhile isAlphaCh)

/-- Dispatch on a parsed class name; `cs0` starts at the opening
parenthesis. -/
def parseDispatch : Nat → List Char → List Char → Option (Formula × List Char)
  | fuel, name, cs0 =>
    (expectS "(".data cs0).bind fun cs1 =>
    if name = "Prop".data then
      (parseQuoted cs1).bind fun p =>
        (expectS ")".data p.2).map fun r => (.prop ⟨p.1⟩, r)
    else if name = "Const".data then
      (parseRat cs1).bind fun p =>
        (expectS ")".data p.2).map fun r => (.const p.1, r)
    else if name = "Coef".data then
      (parseRat cs1).bind fun p =>
      (expectS ", ".data p.2).bind fun cs3 =>
      (parseFormula fuel cs3).bind fun q =>
        (expectS ")".data q.2).map fun r => (.coef p.1 q.1, r)
    else if name = "Exp".data then
      (parseRat cs1).bind fun p =>
      (expectS ", ".data p.2).bind fun cs3 =>
      (parseFormula fuel cs3).bind fun q =>
        (expectS ")".data q.2).map fun r => (.exp p.1 q.1, r)
    else
      (parseArgs fuel cs1).bind fun t =>
        (mkOp name t.1 t.2.1).map fun f => (f, t.2.2)

/-- Parse a `", "`-separated operand list with optional trailing logic
argument, up to and including the closing parenthesis. -/
def parseArgs : Nat → List Char → Option (List Formula × Option Logic × List Char)
  | 0, _ => none
  | fuel + 1, cs =>
    match expectS ")".data cs with
    | some r => some ([], none, r)
    | none =>
      match parseLogicArg cs with
      | some (g, cs1) => (expectS ")".data cs1).map fun r => ([], some g, r)
      | none =>
        (parseFormula fuel cs).bind fun p =>
          match expectS ", ".data p.2 with
          | some cs2 => (parseArgs fuel cs2).map fun t => (p.1 :: t.1, t.2.1, t.2.2)
          | none => (expectS ")".data p.2).map fun r => ([p.1], none, r)

end

mutual

/-- Parser-fuel cost of a formula. -/
def cF : Formula → Nat
  | .prop _ => 1
  | .const _ => 1
  | .and_ l _ => 1 + cL l
  | .weakAnd l => 1 + cL l
  | .or_ l _ => 1 + cL l
  | .weakOr l => 1 + cL l
  | .implies a b _ => 1 + (1 + max (cF a) (1 + max (cF b) 1))
  | .equiv a b _ => 1 + (1 + max (cF a) (1 + max (cF b) 1))
  | .not_ a _ => 1 + (1 + max (cF a) 1)
  | .inv a => 1 + (1 + max (cF a) 1)
  | .delta a => 1 + (1 + max (cF a) 1)
  | .nabla a => 1 + (1 + max (cF a) 1)
  | .coef _ a => 1 + cF a
  | .exp _ a => 1 + cF a

/-- Parser-fuel cost of an operand list. -/
def cL : List Formula → Nat
  | [] => 1
  | f :: fs => 1 + max (cF f) (cL fs)

end

/-- Every canonical name starts with an uppercase ASCII letter (the
head of the class name). -/
theorem reprF_head_upper (f : Formula) :
    ∃ c cs, reprF f = c :: cs ∧ 65 ≤ c.toNat ∧ c.toNat ≤ 90 := by
  cases f <;> simp [reprF]


theorem expectS_ne_of_take (pat cs : List Char)
    (h : cs.take pat.length ≠ pat) : expectS pat cs = none := by
  simp [expectS, h]

theorem parseLogicArg_logicStr (g : Logic) (rest : List Char) :
    parseLogicArg (logicStr g ++ rest) = some (g, rest) := by
  cases g with
  | GODEL =>
      rw [parseLogicArg, logicStr, expectS_append]
  | LUKASIEWICZ =>
      rw [parseLogicArg, logicStr]
      have h1 : expectS "logic=Logic.GODEL".data
          ("logic=Logic.LUKASIEWICZ".data ++ rest) = none := by
        apply expectS_ne_of_take
        rw [List.take_append_of_le_length (by decide)]
        decide
      rw [h1, expectS_append]

theorem parseFormula_succ_shape (fuel : Nat) (name R : List Char)
    (halpha : ∀ c ∈ name, isAlphaCh c = true) :
    parseFormula (fuel + 1) (name ++ '(' :: R) = parseDispatch fuel name ('(' :: R) := by
  rw [parseFormula]
  have htw := takeWhile_append_all (p := isAlphaCh) name ('(' :: R) halpha
    (by intro c hc
        simp only [List.head?_cons, Option.some.injEq] at hc
        subst hc; decide)
  rw [htw.1, htw.2]

theorem parseDispatch_expect (fuel : Nat) (name R : List Char) :
    parseDispatch fuel name ('(' :: R) = (expectS "(".data ('(' :: R)).bind fun cs1 =>
    if name = "Prop".data then
      (parseQuoted cs1).bind fun p =>
        (expectS ")".data p.2).map fun r => (Formula.prop ⟨p.1⟩, r)
    else if name = "Const".data then
      (parseRat cs1).bind fun p =>
        (expectS ")".data p.2).map fun r => (Formula.const p.1, r)
    else if name = "Coef".data then
      (parseRat cs1).bind fun p =>
      (expectS ", ".data p.2).bind fun cs3 =>
      (parseFormula fuel cs3).bind fun q =>
        (expectS ")".data q.2).map fun r => (Formula.coef p.1 q.1, r)
    else if name = "Exp".data then
      (parseRat cs1).bind fun p =>
      (expectS ", ".data p.2).bind fun cs3 =>
      (parseFormula fuel cs3).bind fun q =>
        (expectS ")".data q.2).map fun r => (Formula.exp p.1 q.1, r)
    else
      (parseArgs fuel cs1).bind fun t =>
        (mkOp name t.1 t.2.1).map fun f => (f, t.2.2) := by
  rw [parseDispatch]

theorem parseDispatch_prop (fuel : Nat) (s R : List Char) :
    parseDispatch fuel "Prop".data ('(' :: (pyStrRepr s ++ ')' :: R))
      = some (.prop ⟨s⟩, R) := by
  rw [parseDispatch_expect]
  rw [show ('(' :: (pyStrRepr s ++ ')' :: R))
        = "(".data ++ (pyStrRepr s ++ ')' :: R) by simp]
  rw [expectS_append]
  simp only [Option.some_bind, if_pos rfl]
  rw [parseQuoted_pyStrRepr]
  simp only [Option.some_bind]
  rw [show (')' :: R) = ")".data ++ R by simp, expectS_append]
  rfl

theorem parseDispatch_const (fuel : Nat) (v : ℚ) (R : List Char) :
    parseDispatch fuel "Const".data ('(' :: (ratChars v ++ ')' :: R))
      = some (.const v, R) := by
  rw [parseDispatch_expect]
  rw [show ('(' :: (ratChars v ++ ')' :: R))
        = "(".data ++ (ratChars v ++ ')' :: R) by simp]
  rw [expectS_append]
  simp only [Option.some_bind, if_true]
  rw [parseRat_ratChars v (')' :: R)
    (by intro c hc
        simp only [List.head?_cons, Option.some.injEq] at hc
        subst hc; exact ⟨by decide, by decide⟩)]
  simp only [Option.some_bind]
  rw [show (')' :: R) = ")".data ++ R by simp, expectS_append]
  rfl

theorem parseDispatch_coef (fuel : Nat) (v : ℚ) (a : Formula) (R : List Char)
    (hf : parseFormula fuel (reprF a ++ ')' :: R) = some (a, ')' :: R)) :
    parseDispatch fuel "Coef".data
        ('(' :: (ratChars v ++ ',' :: ' ' :: (reprF a ++ ')' :: R)))
      = some (.coef v a, R) := by
  rw [parseDispatch_expect]
  rw [show ('(' :: (ratChars v ++ ',' :: ' ' :: (reprF a ++ ')' :: R)))
        = "(".data ++ (ratChars v ++ ',' :: ' ' :: (reprF a ++ ')' :: R)) by simp]
  rw [expectS_append]
  simp only [Option.some_bind, if_true]
  rw [parseRat_ratChars v (',' :: ' ' :: (reprF a ++ ')' :: R))
    (by intro c hc
        simp only [List.head?_cons, Option.some.injEq] at hc
        subst hc; exact ⟨by decide, by decide⟩)]
  simp only [Option.some_bind]
  rw [show (',' :: ' ' :: (reprF a ++ ')' :: R))
        = ", ".data ++ (reprF a ++ ')' :: R) by simp, expectS_append]
  simp only [Option.some_bind]
  rw [hf]
  simp only [Option.some_bind]
  rw [show (')' :: R) = ")".data ++ R by simp, expectS_append]
  rfl

theorem parseDispatch_exp (fuel : Nat) (v : ℚ) (a : Formula) (R : List Char)
    (hf : parseFormula fuel (reprF a ++ ')' :: R) = some (a, ')' :: R)) :
    parseDispatch fuel "Exp".data
        ('(' :: (ratChars v ++ ',' :: ' ' :: (reprF a ++ ')' :: R)))
      = some (.exp v a, R) := by
  rw [parseDispatch_expect]
  rw [show ('(' :: (ratChars v ++ ',' :: ' ' :: (reprF a ++ ')' :: R)))
        = "(".data ++ (ratChars v ++ ',' :: ' ' :: (reprF a ++ ')' :: R)) by simp]
  rw [expectS_append]
  simp only [Option.some_bind, if_true]
  rw [parseRat_ratChars v (',' :: ' ' :: (reprF a ++ ')' :: R))
    (by intro c hc
        simp only [List.head?_cons, Option.some.injEq] at hc
        subst hc; exact ⟨by decide, by decide⟩)]
  simp only [Option.some_bind]
  rw [show (',' :: ' ' :: (reprF a ++ ')' :: R))
        = ", ".data ++ (reprF a ++ ')' :: R) by simp, expectS_append]
  simp only [Option.some_bind]
  rw [hf]
  simp only [Option.some_bind]
  rw [show (')' :: R) = ")".data ++ R by simp, expectS_append]
  rfl

theorem parseDispatch_op (fuel : Nat) (name body R : List Char)
    (args : List Formula) (lg : Option Logic) (f : Formula)
    (hnp : name ≠ "Prop".data) (hnc : name ≠ "Const".data)
    (hncf : name ≠ "Coef".data) (hnee : name ≠ "Exp".data)
    (hargs : parseArgs fuel (body ++ ')' :: R) = some (args, lg, R))
    (hmk : mkOp name args lg = some f) :
    parseDispatch fuel name ('(' :: (body ++ ')' :: R)) = some (f, R) := by
  rw [parseDispatch_expect]
  rw [show ('(' :: (body ++ ')' :: R)) = "(".data ++ (body ++ ')' :: R) by simp]
  rw [expectS_append]
  simp only [Option.some_bind, if_neg hnp, if_neg hnc, if_neg hncf, if_neg hnee]
  rw [hargs]
  simp [hmk]

theorem upper_ne_rparen {c : Char} (h1 : 65 ≤ c.toNat) (h2 : c.toNat ≤ 90) :
    c ≠ ')' := by
  intro hcon
  subst hcon
  have : (')' : Char).toNat = 41 := by decide
  omega

theorem upper_ne_ell {c : Char} (h1 : 65 ≤ c.toNat) (h2 : c.toNat ≤ 90) :
    c ≠ 'l' := by
  intro hcon
  subst hcon
  have : ('l' : Char).toNat = 108 := by decide
  omega

theorem expectS_head_ne (pat : List Char) (p : Char) (hp : pat.head? = some p)
    (c : Char) (cs : List Char) (h : c ≠ p) : expectS pat (c :: cs) = none := by
  cases pat with
  | nil => simp at hp
  | cons p0 ps =>
      simp only [List.head?_cons, Option.some.injEq] at hp
      subst hp
      exact expectS_cons_ne p0 ps c cs h

theorem parseLogicArg_upper (c : Char) (cs : List Char) (h : c ≠ 'l') :
    parseLogicArg (c :: cs) = none := by
  rw [parseLogicArg,
    expectS_head_ne "logic=Logic.GODEL".data 'l' (by decide) c cs h,
    expectS_head_ne "logic=Logic.LUKASIEWICZ".data 'l' (by decide) c cs h]

theorem expectS_rparen (rest : List Char) :
    expectS ")".data (')' :: rest) = some rest := by
  rw [show (')' :: rest) = ")".data ++ rest by simp, expectS_append]

theorem expectS_commaSpace (Y : List Char) :
    expectS ", ".data (',' :: ' ' :: Y) = some Y := by
  rw [show (',' :: ' ' :: Y) = ", ".data ++ Y by simp, expectS_append]

theorem parse_roundtrip : ∀ fuel : Nat,
    (∀ f rest, cF f < fuel → parseFormula fuel (reprF f ++ rest) = some (f, rest)) ∧
    (∀ l lg rest, cL l < fuel →
      parseArgs fuel (joinArgs (reprMap l ++ logicArg lg) ++ ')' :: rest)
        = some (l, lg, rest)) := by
  intro fuel
  induction fuel with
  | zero =>
      exact ⟨fun f rest h => absurd h (Nat.not_lt_zero _),
             fun l lg rest h => absurd h (Nat.not_lt_zero _)⟩
  | succ fuel ih =>
      obtain ⟨IHf, IHa⟩ := ih
      constructor
      · -- the parseFormula half
        intro f rest hfc
        cases f with
        | prop n =>
            rw [show reprF (.prop n) ++ rest
                  = "Prop".data ++ '(' :: (pyStrRepr n.data ++ ')' :: rest) by
                simp [reprF]]
            rw [parseFormula_succ_shape fuel _ _ (by decide)]
            rw [parseDispatch_prop]
        | const v =>
            rw [show reprF (.const v) ++ rest
                  = "Const".data ++ '(' :: (ratChars v ++ ')' :: rest) by
                simp [reprF]]
            rw [parseFormula_succ_shape fuel _ _ (by decide)]
            rw [parseDispatch_const]
        | coef v a =>
            rw [show reprF (.coef v a) ++ rest
                  = "Coef".data ++ '(' :: (ratChars v ++ ',' :: ' ' ::
                      (reprF a ++ ')' :: rest)) by simp [reprF]]
            rw [parseFormula_succ_shape fuel _ _ (by decide)]
            rw [parseDispatch_coef fuel v a rest
              (IHf a (')' :: rest) (by simp [cF] at hfc; omega))]
        | exp v a =>
            rw [show reprF (.exp v a) ++ rest
                  = "Exp".data ++ '(' :: (ratChars v ++ ',' :: ' ' ::
                      (reprF a ++ ')' :: rest)) by simp [reprF]]
            rw [parseFormula_succ_shape fuel _ _ (by decide)]
            rw [parseDispatch_exp fuel v a rest
              (IHf a (')' :: rest) (by simp [cF] at hfc; omega))]
        | and_ l lg =>
            rw [show reprF (.and_ l lg) ++ rest
                  = "And".data ++ '(' :: (joinArgs (reprMap l ++ logicArg lg)
                      ++ ')' :: rest) by simp [reprF]]
            rw [parseFormula_succ_shape fuel _ _ (by decide)]
            exact parseDispatch_op fuel _ _ rest l lg _ (by decide) (by decide)
              (by decide) (by decide)
              (IHa l lg rest (by simp [cF] at hfc; omega)) rfl
        | weakAnd l =>
            rw [show reprF (.weakAnd l) ++ rest
                  = "WeakAnd".data ++ '(' :: (joinArgs (reprMap l ++ logicArg none)
                      ++ ')' :: rest) by simp [reprF, logicArg]]
            rw [parseFormula_succ_shape fuel _ _ (by decide)]
            exact parseDispatch_op fuel _ _ rest l none _ (by decide) (by decide)
              (by decide) (by decide)
              (IHa l none rest (by simp [cF] at hfc; omega)) rfl
        | or_ l lg =>
            rw [show reprF (.or_ l lg) ++ rest
                  = "Or".data ++ '(' :: (joinArgs (reprMap l ++ logicArg lg)
                      ++ ')' :: rest) by simp [reprF]]
            rw [parseFormula_succ_shape fuel _ _ (by decide)]
            exact parseDispatch_op fuel _ _ rest l lg _ (by decide) (by decide)
              (by decide) (by decide)
              (IHa l lg rest (by simp [cF] at hfc; omega)) rfl
        | weakOr l =>
            rw [show reprF (.weakOr l) ++ rest
                  = "WeakOr".data ++ '(' :: (joinArgs (reprMap l ++ logicArg none)
                      ++ ')' :: rest) by simp [reprF, logicArg]]
            rw [parseFormula_succ_shape fuel _ _ (by decide)]
            exact parseDispatch_op fuel _ _ rest l none _ (by decide) (by decide)
              (by decide) (by decide)
              (IHa l none rest (by simp [cF] at hfc; omega)) rfl
        | implies a b lg =>
            rw [show reprF (.implies a b lg) ++ rest
                  = "Implies".data ++ '(' :: (joinArgs (reprMap [a, b] ++ logicArg lg)
                      ++ ')' :: rest) by simp [reprF, reprMap]]
            rw [parseFormula_succ_shape fuel _ _ (by decide)]
            exact parseDispatch_op fuel _ _ rest [a, b] lg _ (by decide) (by decide)
              (by decide) (by decide)
              (IHa [a, b] lg rest (by simp [cF, cL] at hfc ⊢; omega)) rfl
        | equiv a b lg =>
            rw [show reprF (.equiv a b lg) ++ rest
                  = "Equiv".data ++ '(' :: (joinArgs (reprMap [a, b] ++ logicArg lg)
                      ++ ')' :: rest) by simp [reprF, reprMap]]
            rw [parseFormula_succ_shape fuel _ _ (by decide)]
            exact parseDispatch_op fuel _ _ rest [a, b] lg _ (by decide) (by decide)
              (by decide) (by decide)
              (IHa [a, b] lg rest (by simp [cF, cL] at hfc ⊢; omega)) rfl
        | not_ a lg =>
            rw [show reprF (.not_ a lg) ++ rest
                  = "Not".data ++ '(' :: (joinArgs (reprMap [a] ++ logicArg lg)
                      ++ ')' :: rest) by simp [reprF, reprMap]]
            rw [parseFormula_succ_shape fuel _ _ (by decide)]
            exact parseDispatch_op fuel _ _ rest [a] lg _ (by decide) (by decide)
              (by decide) (by decide)
              (IHa [a] lg rest (by simp [cF, cL] at hfc ⊢; omega)) rfl
        | inv a =>
            rw [show reprF (.inv a) ++ rest
                  = "Inv".data ++ '(' :: (joinArgs (reprMap [a] ++ logicArg none)
                      ++ ')' :: rest) by simp [reprF, reprMap, logicArg, joinArgs]]
            rw [parseFormula_succ_shape fuel _ _ (by decide)]
            exact parseDispatch_op fuel _ _ rest [a] none _ (by decide) (by decide)
              (by decide) (by decide)
              (IHa [a] none rest (by simp [cF, cL] at hfc ⊢; omega)) rfl
        | delta a =>
            rw [show reprF (.delta a) ++ rest
                  = "Delta".data ++ '(' :: (joinArgs (reprMap [a] ++ logicArg none)
                      ++ ')' :: rest) by simp [reprF, reprMap, logicArg, joinArgs]]
            rw [parseFormula_succ_shape fuel _ _ (by decide)]
            exact parseDispatch_op fuel _ _ rest [a] none _ (by decide) (by decide)
              (by decide) (by decide)
              (IHa [a] none rest (by simp [cF, cL] at hfc ⊢; omega)) rfl
        | nabla a =>
            rw [show reprF (.nabla a) ++ rest
                  = "Nabla".data ++ '(' :: (joinArgs (reprMap [a] ++ logicArg none)
                      ++ ')' :: rest) by simp [reprF, reprMap, logicArg, joinArgs]]
            rw [parseFormula_succ_shape fuel _ _ (by decide)]
            exact parseDispatch_op fuel _ _ rest [a] none _ (by decide) (by decide)
              (by decide) (by decide)
              (IHa [a] none rest (by simp [cF, cL] at hfc ⊢; omega)) rfl
      · -- the parseArgs half
        intro l lg rest hlc
        cases l with
        | nil =>
            cases lg with
            | none =>
                rw [show joinArgs (reprMap [] ++ logicArg none) ++ ')' :: rest
                      = ')' :: rest by simp [reprMap, logicArg, joinArgs]]
                rw [parseArgs, expectS_rparen]
            | some g =>
                rw [show joinArgs (reprMap [] ++ logicArg (some g)) ++ ')' :: rest
                      = logicStr g ++ ')' :: rest by simp [reprMap, logicArg, joinArgs]]
                rw [parseArgs]
                have h1 : expectS ")".data (logicStr g ++ ')' :: rest) = none := by
                  cases g <;>
                    exact expectS_head_ne _ ')' (by decide) _ _ (by decide)
                rw [h1, parseLogicArg_logicStr]
                rfl
        | cons x xs =>
            obtain ⟨hc, hcs, hxr, hu1, hu2⟩ := reprF_head_upper x
            have hne1 : hc ≠ ')' := upper_ne_rparen hu1 hu2
            have hne2 : hc ≠ 'l' := upper_ne_ell hu1 hu2
            have hcfx : cF x < fuel := by
              simp only [cL] at hlc; omega
            have hclxs : cL xs < fuel := by
              simp only [cL] at hlc; omega
            have hhead : ∀ (Y : List Char),
                expectS ")".data (reprF x ++ Y) = none ∧
                parseLogicArg (reprF x ++ Y) = none := by
              intro Y
              rw [hxr]
              exact ⟨expectS_head_ne _ ')' (by decide) _ _ hne1,
                     parseLogicArg_upper _ _ hne2⟩
            cases hxscase : xs with
            | nil =>
                cases lg with
                | none =>
                    rw [show joinArgs (reprMap [x] ++ logicArg none) ++ ')' :: rest
                          = reprF x ++ ')' :: rest by simp [reprMap, logicArg, joinArgs]]
                    rw [parseArgs, (hhead _).1, (hhead _).2,
                      IHf x (')' :: rest) hcfx]
                    simp only [Option.some_bind]
                    rw [expectS_head_ne ", ".data ',' (by decide) _ _ (by decide)]
                    rfl
                | some g =>
                    rw [show joinArgs (reprMap [x] ++ logicArg (some g)) ++ ')' :: rest
                          = reprF x ++ ',' :: ' ' :: (joinArgs (reprMap ([] : List Formula)
                              ++ logicArg (some g)) ++ ')' :: rest) by
                        simp [reprMap, logicArg, joinArgs]]
                    rw [parseArgs, (hhead _).1, (hhead _).2, IHf x _ hcfx]
                    simp only [Option.some_bind]
                    rw [expectS_commaSpace]
                    show Option.map (fun t => (x :: t.1, t.2.1, t.2.2))
                        (parseArgs fuel (joinArgs (reprMap ([] : List Formula)
                          ++ logicArg (some g)) ++ ')' :: rest))
                      = some ([x], some g, rest)
                    rw [IHa [] (some g) rest (hxscase ▸ hclxs)]
                    rfl
            | cons y ys =>
                subst hxscase
                have hjoin : joinArgs (reprMap (x :: y :: ys) ++ logicArg lg) ++ ')' :: rest
                    = reprF x ++ ',' :: ' ' :: (joinArgs (reprMap (y :: ys)
                        ++ logicArg lg) ++ ')' :: rest) := by
                  simp [reprMap, joinArgs]
                rw [hjoin, parseArgs, (hhead _).1, (hhead _).2, IHf x _ hcfx]
                simp only [Option.some_bind]
                rw [expectS_commaSpace]
                show Option.map (fun t => (x :: t.1, t.2.1, t.2.2))
                    (parseArgs fuel (joinArgs (reprMap (y :: ys)
                      ++ logicArg lg) ++ ')' :: rest))
                  = some (x :: y :: ys, lg, rest)
                rw [IHa (y :: ys) lg rest hclxs]
                rfl

/-- Canonical names are injective on formulae. -/
theorem reprF_injective {f g : Formula} (h : reprF f = reprF g) : f = g := by
  have hf := (parse_roundtrip (max (cF f) (cF g) + 1)).1 f []
    (by have := le_max_left (cF f) (cF g); omega)
  have hg := (parse_roundtrip (max (cF f) (cF g) + 1)).1 g []
    (by have := le_max_right (cF f) (cF g); omega)
  rw [List.append_nil] at hf hg
  rw [h, hg] at hf
  have := (Option.some.injEq _ _).mp hf
  exact ((Prod.mk.injEq _ _ _ _).mp this).1.symm

/-- C3: for all formulae `f` and `g`, the canonical name (`repr`) of `f`
equals the canonical name of `g` if and only if `f` is structurally equal
to `g` (same variant, element-wise equal operand sequence, same logic
override). -/
theorem c3_canonical_name_iff_structural_eq (f g : Formula) :
    reprStr f = reprStr g ↔ structEq f g = true := by
  constructor
  · intro h
    have hl : reprF f = reprF g := congrArg String.data h
    have hfg := reprF_injective hl
    subst hfg
    exact (structEq_iff f f).mpr rfl
  · intro h
    have hfg := (structEq_iff f g).mp h
    subst hfg
    rfl

/-! ## Python hashability of formulae (C9)

`op.py` overrides `__eq__` on `Formula` (line 59) and defines no
`__hash__` anywhere in the class hierarchy.  By Python's data model, a
class that overrides `__eq__` without defining `__hash__` gets
`__hash__ = None`, and `hash()` on its instances raises `TypeError`. -/

/-- The data-model facts of a Python class relevant to hashing. -/
structure PyClassInfo where
  definesEq : Bool
  definesHash : Bool

/-- The facts for `socratic.op.Formula`: `__eq__` is defined, no
`__hash__` is. -/
def formulaClassInfo : PyClassInfo := { definesEq := true, definesHash := false }

/-- Python's rule: instances are hashable iff the class defines
`__hash__` or does not override `__eq__` (inheriting `object.__hash__`). -/
def pyHashAvailable (c : PyClassInfo) : Bool := c.definesHash || !c.definesEq

/-- `hash(f)` on a formula object.  The `ok` branch (CPython's default
identity-based hash) is unreachable for `Formula` because the class
overrides `__eq__` without `__hash__`. -/
def hashFormula (_f : Formula) : Except String Nat :=
  if pyHashAvailable formulaClassInfo then .ok 0
  else .error "TypeError: unhashable type"

/-- The variant (Python class) of a formula node, used by
`Formula.__eq__`'s `type(self) == type(other)` check. -/
def variantTag : Formula → Nat
  | .prop _ => 0
  | .const _ => 1
  | .and_ _ _ => 2
  | .weakAnd _ => 3
  | .or_ _ _ => 4
  | .weakOr _ => 5
  | .implies _ _ _ => 6
  | .equiv _ _ _ => 7
  | .not_ _ _ => 8
  | .inv _ => 9
  | .delta _ => 10
  | .nabla _ => 11
  | .coef _ _ => 12
  | .exp _ _ => 13

/-- `Formula.__eq__`: same type and same repr. -/
def pyEqF (f g : Formula) : Bool :=
  variantTag f == variantTag g && reprStr f == reprStr g

/-- C9 counterexample: `hash(Prop('a'))` raises `TypeError` rather than
returning a value, contradicting the claim that `hash(f)` is defined for
every formula. -/
theorem c9_counterexample_hash_raises :
    hashFormula (.prop "a") = .error "TypeError: unhashable type" := rfl

/-- C9 (amended): `hash(f)` raises `TypeError` for every formula, because
`Formula` overrides `__eq__` without defining `__hash__`; equality itself
is supported, and `__eq__` coincides with structural equality. -/
theorem c9_hash_raises_eq_works :
    (∀ f : Formula, hashFormula f = .error "TypeError: unhashable type") ∧
    (∀ f g : Formula, pyEqF f g = true ↔ structEq f g = true) := by
  constructor
  · intro f; rfl
  · intro f g
    constructor
    · intro h
      simp only [pyEqF, Bool.and_eq_true, beq_iff_eq] at h
      have := reprF_injective (congrArg String.data h.2)
      subst this
      exact (structEq_iff f f).mpr rfl
    · intro h
      have := (structEq_iff f g).mp h
      subst this
      simp [pyEqF]

/-! ## The MILP model

The docplex `Model` becomes a record of declared variables, constraints
and an optional objective; the expression builders (`m.min`, `m.max`,
`m.sum`, `m.abs`, arithmetic on variables) become an expression tree.
The external solver itself is a function parameter introduced with
`Theory.entails` below. -/

inductive VarKind where
  | continuous
  | binary
deriving DecidableEq

structure VarDecl where
  name : String
  kind : VarKind
  lb : ℚ
  ub : ℚ
deriving DecidableEq

/-- Solver expressions built by the encoder. -/
inductive MExpr where
  | var (name : String)
  | lit (q : ℚ)
  | add (a b : MExpr)
  | sub (a b : MExpr)
  | scale (c : ℚ) (e : MExpr)
  | minE (es : List MExpr)
  | maxE (es : List MExpr)
  | sumE (es : List MExpr)
  | absE (e : MExpr)

inductive Cmp where
  | ceq
  | cle
  | cge
deriving DecidableEq

structure LinCt where
  lhs : MExpr
  cmp : Cmp
  rhs : MExpr

/-- A posted constraint: named/unnamed linear constraint
(`add_constraint`) or indicator constraint (`add_indicator`, active when
the binary equals `activeWhen`). -/
inductive Ctr where
  | plain (name : Option String) (ct : LinCt)
  | indicator (bvar : String) (activeWhen : Nat) (ct : LinCt)

structure Model where
  vars : List VarDecl
  ctrs : List Ctr
  objective : Option MExpr

/-- The fresh model of `Model(cts_by_name=True)`. -/
def emptyModel : Model := ⟨[], [], none⟩

def Model.getVarByName (m : Model) (n : String) : Option VarDecl :=
  m.vars.find? (fun v => v.name == n)

def Model.getConstraintByName (m : Model) (n : String) : Option Ctr :=
  m.ctrs.find? (fun c => match c with
    | .plain (some cn) _ => cn == n
    | _ => false)

def Model.continuousVar (m : Model) (lb ub : ℚ) (name : String) : Model :=
  { m with vars := m.vars ++ [⟨name, .continuous, lb, ub⟩] }

def Model.binaryVar (m : Model) (name : String) : Model :=
  { m with vars := m.vars ++ [⟨name, .binary, 0, 1⟩] }

/-- The names `docplex` gives the members of a `binary_var_list`. -/
def selectorNames (pfx : String) (k : Nat) : List String :=
  (List.range k).map (fun i => pfx ++ "_" ++ (⟨natChars i⟩ : String))

/-- `m.binary_var_list(k, name=pfx)`. -/
def Model.binaryVarList (m : Model) (k : Nat) (pfx : String) :
    Model × List String :=
  ({ m with
      vars := m.vars ++ (selectorNames pfx k).map (fun n => ⟨n, .binary, 0, 1⟩) },
   selectorNames pfx k)

def Model.addCt (m : Model) (c : Ctr) : Model := { m with ctrs := m.ctrs ++ [c] }

/-! ## Intervals (`theory.py`)

Each interval subclass keeps the base-class fields `lower`/`upper` plus
its openness shape; the `configure`/`compliment` methods post indicator
constraints. -/

inductive IKind where
  | closed
  | openB
  | openLower
  | openUpper
deriving DecidableEq

structure RInterval where
  kind : IKind
  lower : ℚ
  upper : ℚ
deriving DecidableEq

/-- `RealInterval.__init__(self, lower, upper)`: stores the first
parameter as `.lower` and the second as `.upper`, with no validation. -/
def realIntervalInit (kind : IKind) (lower upper : ℚ) : RInterval :=
  ⟨kind, lower, upper⟩

/-- `ClosedInterval(lower, upper)`. -/
def closedIntervalInit (lower upper : ℚ) : RInterval :=
  realIntervalInit .closed lower upper

/-- `Point(point)` = `ClosedInterval(point, point)`. -/
def pointInit (point : ℚ) : RInterval := closedIntervalInit point point

/-- `AtLeast(lower)` = `ClosedInterval(lower, 1)`. -/
def atLeastInit (lower : ℚ) : RInterval := closedIntervalInit lower 1

/-- `AtMost(upper)` = `ClosedInterval(0, upper)`. -/
def atMostInit (upper : ℚ) : RInterval := closedIntervalInit 0 upper

/-- `OpenInterval.__init__(self, upper, lower)` — the declared parameter
names are in this (swapped) order — forwards `super().__init__(upper,
lower)` positionally, so the first positional argument lands in `.lower`
and the second in `.upper`. -/
def openIntervalInit (upper lower : ℚ) : RInterval :=
  realIntervalInit .openB upper lower

/-- `OpenLowerInterval.__init__(self, upper, lower)`, same pattern. -/
def openLowerIntervalInit (upper lower : ℚ) : RInterval :=
  realIntervalInit .openLower upper lower

/-- `GreaterThan(lower)` = `OpenLowerInterval(lower, 1)` (the two swaps
cancel, yielding `.lower = lower`, `.upper = 1`). -/
def greaterThanInit (lower : ℚ) : RInterval := openLowerIntervalInit lower 1

/-- `OpenUpperInterval.__init__(self, upper, lower)`, same pattern. -/
def openUpperIntervalInit (upper lower : ℚ) : RInterval :=
  realIntervalInit .openUpper upper lower

/-- `LessThan(upper)` = `OpenUpperInterval(0, upper)`. -/
def lessThanInit (upper : ℚ) : RInterval := openUpperIntervalInit 0 upper

/-- `RealInterval.configure`: post indicator constraints forcing `val`
inside the interval when `active` is 1; open sides use the gap. -/
def RInterval.configure (iv : RInterval) (m : Model) (gap val : MExpr)
    (active : String) : Model :=
  match iv.kind with
  | .closed =>
      (m.addCt (.indicator active 1 ⟨val, .cge, .lit iv.lower⟩)).addCt
        (.indicator active 1 ⟨val, .cle, .lit iv.upper⟩)
  | .openB =>
      (m.addCt (.indicator active 1 ⟨val, .cge, .add (.lit iv.lower) gap⟩)).addCt
        (.indicator active 1 ⟨val, .cle, .sub (.lit iv.upper) gap⟩)
  | .openLower =>
      (m.addCt (.indicator active 1 ⟨val, .cge, .add (.lit iv.lower) gap⟩)).addCt
        (.indicator active 1 ⟨val, .cle, .lit iv.upper⟩)
  | .openUpper =>
      (m.addCt (.indicator active 1 ⟨val, .cge, .lit iv.lower⟩)).addCt
        (.indicator active 1 ⟨val, .cle, .sub (.lit iv.upper) gap⟩)

/-- `RealInterval.compliment`: post indicator constraints forcing `val`
outside the interval; `active` selects the violated side (1 = below,
0 = above). -/
def RInterval.compliment (iv : RInterval) (m : Model) (gap val : MExpr)
    (active : String) : Model :=
  match iv.kind with
  | .closed =>
      (m.addCt (.indicator active 1 ⟨val, .cle, .sub (.lit iv.lower) gap⟩)).addCt
        (.indicator active 0 ⟨val, .cge, .add (.lit iv.upper) gap⟩)
  | .openB =>
      (m.addCt (.indicator active 1 ⟨val, .cle, .lit iv.lower⟩)).addCt
        (.indicator active 0 ⟨val, .cge, .lit iv.upper⟩)
  | .openLower =>
      (m.addCt (.indicator active 1 ⟨val, .cle, .lit iv.lower⟩)).addCt
        (.indicator active 0 ⟨val, .cge, .add (.lit iv.upper) gap⟩)
  | .openUpper =>
      (m.addCt (.indicator active 1 ⟨val, .cle, .sub (.lit iv.lower) gap⟩)).addCt
        (.indicator active 0 ⟨val, .cge, .lit iv.upper⟩)

/-- C10: for bounds `0 ≤ l ≤ u ≤ 1`, the positional calls
`OpenInterval(l, u)`, `OpenLowerInterval(l, u)`, `OpenUpperInterval(l, u)`
bind the first argument to `.lower` and the second to `.upper`, even
though the declared parameter names are `(upper, lower)`; consequently
the keyword call `...(lower=l, upper=u)` — which binds the declared
parameters, i.e. the application `openIntervalInit u l` — produces
`.lower = u` and `.upper = l`. -/
theorem c10_open_interval_arg_binding (l u : ℚ)
    (h0 : 0 ≤ l) (hlu : l ≤ u) (h1 : u ≤ 1) :
    ((openIntervalInit l u).lower = l ∧ (openIntervalInit l u).upper = u ∧
     (openLowerIntervalInit l u).lower = l ∧ (openLowerIntervalInit l u).upper = u ∧
     (openUpperIntervalInit l u).lower = l ∧ (openUpperIntervalInit l u).upper = u) ∧
    ((openIntervalInit u l).lower = u ∧ (openIntervalInit u l).upper = l ∧
     (openLowerIntervalInit u l).lower = u ∧ (openLowerIntervalInit u l).upper = l ∧
     (openUpperIntervalInit u l).lower = u ∧ (openUpperIntervalInit u l).upper = l) :=
  ⟨⟨rfl, rfl, rfl, rfl, rfl, rfl⟩, ⟨rfl, rfl, rfl, rfl, rfl, rfl⟩⟩

theorem c10_open_interval_arg_binding_witness :
    ((0 : ℚ) ≤ 0 ∧ (0 : ℚ) ≤ 1 ∧ (1 : ℚ) ≤ 1) ∧
    (((openIntervalInit (0 : ℚ) 1).lower = 0 ∧ (openIntervalInit (0 : ℚ) 1).upper = 1 ∧
      (openLowerIntervalInit (0 : ℚ) 1).lower = 0 ∧ (openLowerIntervalInit (0 : ℚ) 1).upper = 1 ∧
      (openUpperIntervalInit (0 : ℚ) 1).lower = 0 ∧ (openUpperIntervalInit (0 : ℚ) 1).upper = 1) ∧
     ((openIntervalInit (1 : ℚ) 0).lower = 1 ∧ (openIntervalInit (1 : ℚ) 0).upper = 0 ∧
      (openLowerIntervalInit (1 : ℚ) 0).lower = 1 ∧ (openLowerIntervalInit (1 : ℚ) 0).upper = 0 ∧
      (openUpperIntervalInit (1 : ℚ) 0).lower = 1 ∧ (openUpperIntervalInit (1 : ℚ) 0).upper = 0)) :=
  ⟨⟨le_rfl, by norm_num, le_rfl⟩,
   c10_open_interval_arg_binding 0 1 le_rfl (by norm_num) le_rfl⟩

/-! ## Sentences (`theory.py`) and constructor behaviour (C4) -/

/-- The `TruthType` union: a `Real` or a `RealInterval`. -/
inductive TruthType where
  | real (r : ℚ)
  | interval (iv : RInterval)

/-- A `SimpleSentence`: one formula and a list of intervals. -/
structure SSentence where
  formula : Formula
  intervals : List RInterval

/-- `SimpleSentence.__init__`: reals coerce to `Point`s; no validation
is performed (in particular an empty interval list is accepted). -/
def simpleSentenceInit (formula : Formula) (intervals : List TruthType) :
    SSentence :=
  ⟨formula, intervals.map (fun t => match t with
      | .real r => pointInit r
      | .interval iv => iv)⟩

/-- `Coef.__init__(coef, arg)`: stores the coefficient unchecked. -/
def coefInit (c : ℚ) (arg : Formula) : Formula := .coef c arg

/-- `Exp.__init__(exp, arg)`: stores the exponent unchecked. -/
def expInit (e : ℚ) (arg : Formula) : Formula := .exp e arg

/-- C4 counterexample: the constructors the claim says must reject bad
input happily produce values — an interval with `lower = 2 > upper = -1`
(both outside `[0,1]`), a `SimpleSentence` with an empty interval list,
and `Coef`/`Exp` with negative scalars.  No error is raised anywhere in
`RealInterval.__init__`, `SimpleSentence.__init__`, `Coef.__init__` or
`Exp.__init__`. -/
theorem c4_counterexample_no_validation :
    closedIntervalInit 2 (-1) = ⟨.closed, 2, -1⟩ ∧
    (simpleSentenceInit (.prop "a") []).intervals = [] ∧
    coefInit (-3) (.prop "a") = .coef (-3) (.prop "a") ∧
    expInit (-3) (.prop "a") = .exp (-3) (.prop "a") :=
  ⟨rfl, rfl, rfl, rfl⟩

/-- C4 (amended): construction performs no validation at all — interval
constructors accept any bounds (including `lower > upper` and bounds
outside `[0,1]`) and store them verbatim, `SimpleSentence` accepts an
empty interval list, and `Coef`/`Exp` accept any (e.g. negative)
coefficient or exponent; every constructor always returns a value. -/
theorem c4_constructors_never_reject :
    (∀ l u : ℚ, (closedIntervalInit l u).lower = l ∧
      (closedIntervalInit l u).upper = u) ∧
    (∀ f : Formula, (simpleSentenceInit f []).formula = f ∧
      (simpleSentenceInit f []).intervals = []) ∧
    (∀ (c : ℚ) (f : Formula), coefInit c f = .coef c f) ∧
    (∀ (e : ℚ) (f : Formula), expInit e f = .exp e f) :=
  ⟨fun _ _ => ⟨rfl, rfl⟩, fun _ => ⟨rfl, rfl⟩,
   fun _ _ => rfl, fun _ _ => rfl⟩

/-! ## The formula encoder (`Formula.configure` and
`Operator._add_constraints`)

On a (reset) formula tree, `configure` looks up or creates the node's
`[0,1]` value variable keyed by canonical name, configures the operands,
then posts the operator's defining constraints unless already present
(deduplication by constraint/auxiliary-variable name). -/

/-- `Operator._add_constraint`: post a named constraint unless one with
this name exists. -/
def Model.addNamedCtIfAbsent (m : Model) (ctName : String) (ct : LinCt) : Model :=
  match m.getConstraintByName ctName with
  | some _ => m
  | none => m.addCt (.plain (some ctName) ct)

/-- Look up the node's value variable by name, creating a continuous
`[0,1]` variable if absent. -/
def Model.ensureContinuousVal (m : Model) (vn : String) : Model :=
  match m.getVarByName vn with
  | some _ => m
  | none => m.continuousVar 0 1 vn

/-- `And._add_constraints` (also used by `WeakAnd` with Gödel forced). -/
def addAndCts (name : String) (selfVal : MExpr) (opVals : List MExpr)
    (lg : Logic) (m : Model) : Model :=
  match lg with
  | .GODEL =>
      m.addNamedCtIfAbsent (name ++ ".constraint") ⟨selfVal, .ceq, .minE opVals⟩
  | .LUKASIEWICZ =>
      m.addNamedCtIfAbsent (name ++ ".constraint")
        ⟨selfVal, .ceq,
         .maxE [.lit 0, .sub (.lit 1) (.sumE (opVals.map (fun v => .sub (.lit 1) v)))]⟩

/-- `Or._add_constraints` (also used by `WeakOr` with Gödel forced). -/
def addOrCts (name : String) (selfVal : MExpr) (opVals : List MExpr)
    (lg : Logic) (m : Model) : Model :=
  match lg with
  | .GODEL =>
      m.addNamedCtIfAbsent (name ++ ".constraint") ⟨selfVal, .ceq, .maxE opVals⟩
  | .LUKASIEWICZ =>
      m.addNamedCtIfAbsent (name ++ ".constraint")
        ⟨selfVal, .ceq, .minE [.lit 1, .sumE opVals]⟩

/-- `isinstance(self.rhs.val, Real) and self.rhs.val == 0`: after
configuration only `Const` nodes hold a plain number. -/
def isZeroLit : MExpr → Bool
  | .lit q => q == 0
  | _ => false

/-- `Implies._add_constraints`; `implName` is the repr of the implication
node the constraints are keyed by (for `Not`, the lifted implication). -/
def addImpliesCts (implName : String) (selfVal lhsVal rhsVal : MExpr)
    (lg : Logic) (gap : MExpr) (m : Model) : Model :=
  match lg with
  | .GODEL =>
      let vn := implName ++ ".lhs_le_rhs"
      match m.getVarByName vn with
      | some _ => m
      | none =>
          ((((m.binaryVar vn).addCt
              (.indicator vn 1 ⟨lhsVal, .cle, rhsVal⟩)).addCt
              (.indicator vn 1 ⟨selfVal, .ceq, .lit 1⟩)).addCt
              (.indicator vn 0 ⟨lhsVal, .cge, .add rhsVal gap⟩)).addCt
              (.indicator vn 0 ⟨selfVal, .ceq, rhsVal⟩)
  | .LUKASIEWICZ =>
      if isZeroLit rhsVal then
        m.addNamedCtIfAbsent (implName ++ ".constraint")
          ⟨selfVal, .ceq, .sub (.lit 1) lhsVal⟩
      else
        m.addNamedCtIfAbsent (implName ++ ".constraint")
          ⟨selfVal, .ceq, .minE [.lit 1, .add (.sub (.lit 1) lhsVal) rhsVal]⟩

/-- `Equiv._add_constraints`. -/
def addEquivCts (name : String) (selfVal lhsVal rhsVal : MExpr)
    (lg : Logic) (gap : MExpr) (m : Model) : Model :=
  match lg with
  | .GODEL =>
      let vn := name ++ ".lhs_eq_rhs"
      match m.getVarByName vn with
      | some _ => m
      | none =>
          ((((m.binaryVar vn).addCt
              (.indicator vn 1 ⟨lhsVal, .ceq, rhsVal⟩)).addCt
              (.indicator vn 1 ⟨selfVal, .ceq, .lit 1⟩)).addCt
              (.indicator vn 0 ⟨.absE (.sub lhsVal rhsVal), .cge, gap⟩)).addCt
              (.indicator vn 0 ⟨selfVal, .ceq, .minE [lhsVal, rhsVal]⟩)
  | .LUKASIEWICZ =>
      m.addNamedCtIfAbsent (name ++ ".constraint")
        ⟨selfVal, .ceq, .sub (.lit 1) (.absE (.sub lhsVal rhsVal))⟩

/-- `Delta._add_constraints`. -/
def addDeltaCts (name : String) (selfVal argVal : MExpr) (gap : MExpr)
    (m : Model) : Model :=
  let vn := name ++ ".arg_eq_one"
  match m.getVarByName vn with
  | some _ => m
  | none =>
      ((((m.binaryVar vn).addCt
          (.indicator vn 1 ⟨argVal, .ceq, .lit 1⟩)).addCt
          (.indicator vn 1 ⟨selfVal, .ceq, .lit 1⟩)).addCt
          (.indicator vn 0 ⟨argVal, .cle, .sub (.lit 1) gap⟩)).addCt
          (.indicator vn 0 ⟨selfVal, .ceq, .lit 0⟩)

/-- `Nabla._add_constraints`. -/
def addNablaCts (name : String) (selfVal argVal : MExpr) (gap : MExpr)
    (m : Model) : Model :=
  let vn := name ++ ".arg_eq_zero"
  match m.getVarByName vn with
  | some _ => m
  | none =>
      ((((m.binaryVar vn).addCt
          (.indicator vn 1 ⟨argVal, .ceq, .lit 0⟩)).addCt
          (.indicator vn 1 ⟨selfVal, .ceq, .lit 0⟩)).addCt
          (.indicator vn 0 ⟨argVal, .cge, gap⟩)).addCt
          (.indicator vn 0 ⟨selfVal, .ceq, .lit 1⟩)

/-- `Coef._add_constraints`. -/
def addCoefCts (name : String) (selfVal : MExpr) (c : ℚ) (argVal : MExpr)
    (m : Model) : Model :=
  m.addNamedCtIfAbsent (name ++ ".constraint")
    ⟨selfVal, .ceq, .minE [.lit 1, .scale c argVal]⟩

/-- `Exp._add_constraints`. -/
def addExpCts (name : String) (selfVal : MExpr) (e : ℚ) (argVal : MExpr)
    (m : Model) : Model :=
  m.addNamedCtIfAbsent (name ++ ".constraint")
    ⟨selfVal, .ceq, .maxE [.lit 0, .sub (.lit 1) (.scale e (.sub (.lit 1) argVal))]⟩

mutual

/-- `Formula.configure` on a reset tree: returns the updated model and
the node's value (a variable reference, or the payload for `Const`). -/
def configureF : Formula → Model → MExpr → Logic → Model × MExpr
  | .const v, m, _, _ => (m, .lit v)
  | .prop n, m, _, _ =>
      let vn := reprStr (.prop n) ++ ".val"
      (m.ensureContinuousVal vn, .var vn)
  | .and_ l lg0, m, gap, lg =>
      let vn := reprStr (.and_ l lg0) ++ ".val"
      let p := configureList l (m.ensureContinuousVal vn) gap lg
      (addAndCts (reprStr (.and_ l lg0)) (.var vn) p.2 (lg0.getD lg) p.1, .var vn)
  | .weakAnd l, m, gap, lg =>
      let vn := reprStr (.weakAnd l) ++ ".val"
      let p := configureList l (m.ensureContinuousVal vn) gap lg
      (addAndCts (reprStr (.weakAnd l)) (.var vn) p.2 .GODEL p.1, .var vn)
  | .or_ l lg0, m, gap, lg =>
      let vn := reprStr (.or_ l lg0) ++ ".val"
      let p := configureList l (m.ensureContinuousVal vn) gap lg
      (addOrCts (reprStr (.or_ l lg0)) (.var vn) p.2 (lg0.getD lg) p.1, .var vn)
  | .weakOr l, m, gap, lg =>
      let vn := reprStr (.weakOr l) ++ ".val"
      let p := configureList l (m.ensureContinuousVal vn) gap lg
      (addOrCts (reprStr (.weakOr l)) (.var vn) p.2 .GODEL p.1, .var vn)
  | .implies a b lg0, m, gap, lg =>
      let vn := reprStr (.implies a b lg0) ++ ".val"
      let pa := configureF a (m.ensureContinuousVal vn) gap lg
      let pb := configureF b pa.1 gap lg
      (addImpliesCts (reprStr (.implies a b lg0)) (.var vn) pa.2 pb.2
        (lg0.getD lg) gap pb.1, .var vn)
  | .equiv a b lg0, m, gap, lg =>
      let vn := reprStr (.equiv a b lg0) ++ ".val"
      let pa := configureF a (m.ensureContinuousVal vn) gap lg
      let pb := configureF b pa.1 gap lg
      (addEquivCts (reprStr (.equiv a b lg0)) (.var vn) pa.2 pb.2
        (lg0.getD lg) gap pb.1, .var vn)
  | .not_ a lg0, m, gap, lg =>
      let vn := reprStr (.not_ a lg0) ++ ".val"
      let pa := configureF a (m.ensureContinuousVal vn) gap lg
      let lgRes := lg0.getD lg
      (addImpliesCts (reprStr (.implies a (.const 0) (some lgRes))) (.var vn)
        pa.2 (.lit 0) lgRes gap pa.1, .var vn)
  | .inv a, m, gap, lg =>
      let vn := reprStr (.inv a) ++ ".val"
      let pa := configureF a (m.ensureContinuousVal vn) gap lg
      (addImpliesCts (reprStr (.implies a (.const 0) (some .LUKASIEWICZ))) (.var vn)
        pa.2 (.lit 0) .LUKASIEWICZ gap pa.1, .var vn)
  | .delta a, m, gap, lg =>
      let vn := reprStr (.delta a) ++ ".val"
      let pa := configureF a (m.ensureContinuousVal vn) gap lg
      (addDeltaCts (reprStr (.delta a)) (.var vn) pa.2 gap pa.1, .var vn)
  | .nabla a, m, gap, lg =>
      let vn := reprStr (.nabla a) ++ ".val"
      let pa := configureF a (m.ensureContinuousVal vn) gap lg
      (addNablaCts (reprStr (.nabla a)) (.var vn) pa.2 gap pa.1, .var vn)
  | .coef c a, m, gap, lg =>
      let vn := reprStr (.coef c a) ++ ".val"
      let pa := configureF a (m.ensureContinuousVal vn) gap lg
      (addCoefCts (reprStr (.coef c a)) (.var vn) c pa.2 pa.1, .var vn)
  | .exp e a, m, gap, lg =>
      let vn := reprStr (.exp e a) ++ ".val"
      let pa := configureF a (m.ensureContinuousVal vn) gap lg
      (addExpCts (reprStr (.exp e a)) (.var vn) e pa.2 pa.1, .var vn)

/-- Configure a list of operands in order, collecting their values. -/
def configureList : List Formula → Model → MExpr → Logic → Model × List MExpr
  | [], m, _, _ => (m, [])
  | f :: fs, m, gap, lg =>
      let p := configureF f m gap lg
      let q := configureList fs p.1 gap lg
      (q.1, p.2 :: q.2)

end

/-! ## Sentence encodings (C2) -/

/-- The two indicator constraints `RealInterval.configure` posts. -/
def insideCtrList (iv : RInterval) (gap val : MExpr) (active : String) :
    List Ctr :=
  match iv.kind with
  | .closed =>
      [.indicator active 1 ⟨val, .cge, .lit iv.lower⟩,
       .indicator active 1 ⟨val, .cle, .lit iv.upper⟩]
  | .openB =>
      [.indicator active 1 ⟨val, .cge, .add (.lit iv.lower) gap⟩,
       .indicator active 1 ⟨val, .cle, .sub (.lit iv.upper) gap⟩]
  | .openLower =>
      [.indicator active 1 ⟨val, .cge, .add (.lit iv.lower) gap⟩,
       .indicator active 1 ⟨val, .cle, .lit iv.upper⟩]
  | .openUpper =>
      [.indicator active 1 ⟨val, .cge, .lit iv.lower⟩,
       .indicator active 1 ⟨val, .cle, .sub (.lit iv.upper) gap⟩]

/-- The two indicator constraints `RealInterval.compliment` posts. -/
def outsideCtrList (iv : RInterval) (gap val : MExpr) (active : String) :
    List Ctr :=
  match iv.kind with
  | .closed =>
      [.indicator active 1 ⟨val, .cle, .sub (.lit iv.lower) gap⟩,
       .indicator active 0 ⟨val, .cge, .add (.lit iv.upper) gap⟩]
  | .openB =>
      [.indicator active 1 ⟨val, .cle, .lit iv.lower⟩,
       .indicator active 0 ⟨val, .cge, .lit iv.upper⟩]
  | .openLower =>
      [.indicator active 1 ⟨val, .cle, .lit iv.lower⟩,
       .indicator active 0 ⟨val, .cge, .add (.lit iv.upper) gap⟩]
  | .openUpper =>
      [.indicator active 1 ⟨val, .cle, .sub (.lit iv.lower) gap⟩,
       .indicator active 0 ⟨val, .cge, .lit iv.upper⟩]

theorem interval_configure_eq (iv : RInterval) (m : Model) (gap val : MExpr)
    (active : String) :
    iv.configure m gap val active
      = { m with ctrs := m.ctrs ++ insideCtrList iv gap val active } := by
  obtain ⟨k, lo, hi⟩ := iv
  cases k <;> simp [RInterval.configure, insideCtrList, Model.addCt]

theorem interval_compliment_eq (iv : RInterval) (m : Model) (gap val : MExpr)
    (active : String) :
    iv.compliment m gap val active
      = { m with ctrs := m.ctrs ++ outsideCtrList iv gap val active } := by
  obtain ⟨k, lo, hi⟩ := iv
  cases k <;> simp [RInterval.compliment, outsideCtrList, Model.addCt]

/-- `SimpleSentence.configure`: encode the formula, create the selector
vector, post `Σ selectors = 1`, then assert each interval inside. -/
def SSentence.configure (s : SSentence) (m : Model) (gap : MExpr) (lg : Logic) :
    Model :=
  let fm := configureF s.formula m gap lg
  let bl := fm.1.binaryVarList s.intervals.length
    (reprStr s.formula ++ ".active_interval")
  let m3 := bl.1.addCt (.plain none ⟨.sumE (bl.2.map MExpr.var), .ceq, .lit 1⟩)
  (s.intervals.zip bl.2).foldl (fun mm p => p.1.configure mm gap fm.2 p.2) m3

/-- `SimpleSentence.compliment`: encode the formula, create the selector
vector, and assert each interval outside — with no `Σ = 1` constraint. -/
def SSentence.compliment (s : SSentence) (m : Model) (gap : MExpr) (lg : Logic) :
    Model :=
  let fm := configureF s.formula m gap lg
  let bl := fm.1.binaryVarList s.intervals.length
    (reprStr s.formula ++ ".active_interval")
  (s.intervals.zip bl.2).foldl (fun mm p => p.1.compliment mm gap fm.2 p.2) bl.1

theorem foldl_interval_configure (l : List (RInterval × String)) (m : Model)
    (gap v : MExpr) :
    l.foldl (fun mm p => p.1.configure mm gap v p.2) m
      = { m with ctrs := m.ctrs ++ l.flatMap (fun p => insideCtrList p.1 gap v p.2) } := by
  induction l generalizing m with
  | nil => simp
  | cons p ps ih =>
      simp only [List.foldl_cons, List.flatMap_cons]
      rw [interval_configure_eq, ih]
      simp

theorem foldl_interval_compliment (l : List (RInterval × String)) (m : Model)
    (gap v : MExpr) :
    l.foldl (fun mm p => p.1.compliment mm gap v p.2) m
      = { m with ctrs := m.ctrs ++ l.flatMap (fun p => outsideCtrList p.1 gap v p.2) } := by
  induction l generalizing m with
  | nil => simp
  | cons p ps ih =>
      simp only [List.foldl_cons, List.flatMap_cons]
      rw [interval_compliment_eq, ih]
      simp

/-- C2: for every `SimpleSentence` with `k` intervals and any model
state, the positive encoding (`configure`) extends the
formula-configured model with exactly `k` binary selector variables, one
(unnamed) constraint `Σ selectors = 1`, and, for each interval, its two
inside indicator constraints guarded by that interval's selector; the
negative encoding (`compliment`) extends it with the same `k` selectors
and each interval's two outside indicator constraints guarded (side
selected) by its selector, with no `Σ = 1` constraint — every constraint
it adds is an indicator constraint, so each interval is independently
excluded. -/
theorem c2_sentence_encodings (s : SSentence) (m : Model) (gap : MExpr)
    (lg : Logic) :
    (s.configure m gap lg =
      { (configureF s.formula m gap lg).1 with
        vars := (configureF s.formula m gap lg).1.vars
          ++ (selectorNames (reprStr s.formula ++ ".active_interval")
                s.intervals.length).map (fun n => ⟨n, .binary, 0, 1⟩),
        ctrs := (configureF s.formula m gap lg).1.ctrs
          ++ [.plain none
                ⟨.sumE ((selectorNames (reprStr s.formula ++ ".active_interval")
                    s.intervals.length).map MExpr.var), .ceq, .lit 1⟩]
          ++ (s.intervals.zip (selectorNames (reprStr s.formula ++ ".active_interval")
                s.intervals.length)).flatMap
              (fun p => insideCtrList p.1 gap (configureF s.formula m gap lg).2 p.2) }) ∧
    (s.compliment m gap lg =
      { (configureF s.formula m gap lg).1 with
        vars := (configureF s.formula m gap lg).1.vars
          ++ (selectorNames (reprStr s.formula ++ ".active_interval")
                s.intervals.length).map (fun n => ⟨n, .binary, 0, 1⟩),
        ctrs := (configureF s.formula m gap lg).1.ctrs
          ++ (s.intervals.zip (selectorNames (reprStr s.formula ++ ".active_interval")
                s.intervals.length)).flatMap
              (fun p => outsideCtrList p.1 gap (configureF s.formula m gap lg).2 p.2) }) ∧
    (selectorNames (reprStr s.formula ++ ".active_interval")
        s.intervals.length).length = s.intervals.length ∧
    (∀ c ∈ (s.intervals.zip (selectorNames (reprStr s.formula ++ ".active_interval")
        s.intervals.length)).flatMap
          (fun p => outsideCtrList p.1 gap (configureF s.formula m gap lg).2 p.2),
      ∃ b w ct, c = Ctr.indicator b w ct) := by
  refine ⟨?_, ?_, by simp [selectorNames], ?_⟩
  · rw [SSentence.configure]
    rw [foldl_interval_configure]
    simp [Model.binaryVarList, Model.addCt]
  · rw [SSentence.compliment]
    rw [foldl_interval_compliment]
    simp [Model.binaryVarList]
  · intro c hc
    simp only [List.mem_flatMap] at hc
    obtain ⟨p, _, hp⟩ := hc
    obtain ⟨⟨k, lo, hi⟩, a⟩ := p
    cases k <;> simp only [outsideCtrList, List.mem_cons, List.not_mem_nil,
      or_false] at hp <;> rcases hp with h | h <;> exact ⟨_, _, _, h⟩

/-! ## The theory driver (`Theory.entails`, C1, C7) -/

/-- `m'` extends `m`: variables and constraints are appended, the
objective is untouched. -/
def ModelExt (m m' : Model) : Prop :=
  (∃ e, m'.vars = m.vars ++ e) ∧ (∃ e, m'.ctrs = m.ctrs ++ e) ∧
  m'.objective = m.objective

theorem ModelExt.refl (m : Model) : ModelExt m m :=
  ⟨⟨[], by simp⟩, ⟨[], by simp⟩, rfl⟩

theorem ModelExt.trans {a b c : Model} (h1 : ModelExt a b) (h2 : ModelExt b c) :
    ModelExt a c := by
  obtain ⟨⟨e1, hv1⟩, ⟨f1, hc1⟩, ho1⟩ := h1
  obtain ⟨⟨e2, hv2⟩, ⟨f2, hc2⟩, ho2⟩ := h2
  exact ⟨⟨e1 ++ e2, by simp [hv2, hv1]⟩, ⟨f1 ++ f2, by simp [hc2, hc1]⟩,
    ho2.trans ho1⟩

theorem addCt_ext (m : Model) (c : Ctr) : ModelExt m (m.addCt c) :=
  ⟨⟨[], by simp [Model.addCt]⟩, ⟨[c], rfl⟩, rfl⟩

theorem continuousVar_ext (m : Model) (lb ub : ℚ) (n : String) :
    ModelExt m (m.continuousVar lb ub n) :=
  ⟨⟨[⟨n, .continuous, lb, ub⟩], rfl⟩, ⟨[], by simp [Model.continuousVar]⟩, rfl⟩

theorem binaryVar_ext (m : Model) (n : String) : ModelExt m (m.binaryVar n) :=
  ⟨⟨[⟨n, .binary, 0, 1⟩], rfl⟩, ⟨[], by simp [Model.binaryVar]⟩, rfl⟩

theorem binaryVarList_ext (m : Model) (k : Nat) (pfx : String) :
    ModelExt m (m.binaryVarList k pfx).1 :=
  ⟨⟨_, rfl⟩, ⟨[], by simp [Model.binaryVarList]⟩, rfl⟩

theorem ensureContinuousVal_ext (m : Model) (vn : String) :
    ModelExt m (m.ensureContinuousVal vn) := by
  rw [Model.ensureContinuousVal]
  split
  · exact ModelExt.refl m
  · exact continuousVar_ext m 0 1 vn

theorem addNamedCtIfAbsent_ext (m : Model) (cn : String) (ct : LinCt) :
    ModelExt m (m.addNamedCtIfAbsent cn ct) := by
  rw [Model.addNamedCtIfAbsent]
  split
  · exact ModelExt.refl m
  · exact addCt_ext m _

theorem addAndCts_ext (n : String) (sv : MExpr) (ov : List MExpr) (lg : Logic)
    (m : Model) : ModelExt m (addAndCts n sv ov lg m) := by
  cases lg <;> exact addNamedCtIfAbsent_ext m _ _

theorem addOrCts_ext (n : String) (sv : MExpr) (ov : List MExpr) (lg : Logic)
    (m : Model) : ModelExt m (addOrCts n sv ov lg m) := by
  cases lg <;> exact addNamedCtIfAbsent_ext m _ _

theorem addImpliesCts_ext (n : String) (sv lv rv : MExpr) (lg : Logic)
    (gap : MExpr) (m : Model) : ModelExt m (addImpliesCts n sv lv rv lg gap m) := by
  cases lg with
  | GODEL =>
      rw [addImpliesCts]
      split
      · exact ModelExt.refl m
      · exact ((((binaryVar_ext m _).trans (addCt_ext _ _)).trans
          (addCt_ext _ _)).trans (addCt_ext _ _)).trans (addCt_ext _ _)
  | LUKASIEWICZ =>
      rw [addImpliesCts]
      split <;> exact addNamedCtIfAbsent_ext m _ _

theorem addEquivCts_ext (n : String) (sv lv rv : MExpr) (lg : Logic)
    (gap : MExpr) (m : Model) : ModelExt m (addEquivCts n sv lv rv lg gap m) := by
  cases lg with
  | GODEL =>
      rw [addEquivCts]
      split
      · exact ModelExt.refl m
      · exact ((((binaryVar_ext m _).trans (addCt_ext _ _)).trans
          (addCt_ext _ _)).trans (addCt_ext _ _)).trans (addCt_ext _ _)
  | LUKASIEWICZ => exact addNamedCtIfAbsent_ext m _ _

theorem addDeltaCts_ext (n : String) (sv av gap : MExpr) (m : Model) :
    ModelExt m (addDeltaCts n sv av gap m) := by
  rw [addDeltaCts]
  split
  · exact ModelExt.refl m
  · exact ((((binaryVar_ext m _).trans (addCt_ext _ _)).trans
      (addCt_ext _ _)).trans (addCt_ext _ _)).trans (addCt_ext _ _)

theorem addNablaCts_ext (n : String) (sv av gap : MExpr) (m : Model) :
    ModelExt m (addNablaCts n sv av gap m) := by
  rw [addNablaCts]
  split
  · exact ModelExt.refl m
  · exact ((((binaryVar_ext m _).trans (addCt_ext _ _)).trans
      (addCt_ext _ _)).trans (addCt_ext _ _)).trans (addCt_ext _ _)

theorem addCoefCts_ext (n : String) (sv : MExpr) (c : ℚ) (av : MExpr)
    (m : Model) : ModelExt m (addCoefCts n sv c av m) :=
  addNamedCtIfAbsent_ext m _ _

theorem addExpCts_ext (n : String) (sv : MExpr) (e : ℚ) (av : MExpr)
    (m : Model) : ModelExt m (addExpCts n sv e av m) :=
  addNamedCtIfAbsent_ext m _ _

mutual

theorem configureF_ext : ∀ (f : Formula) (m : Model) (gap : MExpr) (lg : Logic),
    ModelExt m (configureF f m gap lg).1
  | .const _, m, _, _ => ModelExt.refl m
  | .prop n, m, _, _ => ensureContinuousVal_ext m _
  | .and_ l lg0, m, gap, lg =>
      ((ensureContinuousVal_ext m _).trans
        (configureList_ext l _ gap lg)).trans (addAndCts_ext _ _ _ _ _)
  | .weakAnd l, m, gap, lg =>
      ((ensureContinuousVal_ext m _).trans
        (configureList_ext l _ gap lg)).trans (addAndCts_ext _ _ _ _ _)
  | .or_ l lg0, m, gap, lg =>
      ((ensureContinuousVal_ext m _).trans
        (configureList_ext l _ gap lg)).trans (addOrCts_ext _ _ _ _ _)
  | .weakOr l, m, gap, lg =>
      ((ensureContinuousVal_ext m _).trans
        (configureList_ext l _ gap lg)).trans (addOrCts_ext _ _ _ _ _)
  | .implies a b lg0, m, gap, lg =>
      (((ensureContinuousVal_ext m _).trans
        (configureF_ext a _ gap lg)).trans
        (configureF_ext b _ gap lg)).trans (addImpliesCts_ext _ _ _ _ _ _ _)
  | .equiv a b lg0, m, gap, lg =>
      (((ensureContinuousVal_ext m _).trans
        (configureF_ext a _ gap lg)).trans
        (configureF_ext b _ gap lg)).trans (addEquivCts_ext _ _ _ _ _ _ _)
  | .not_ a lg0, m, gap, lg =>
      ((ensureContinuousVal_ext m _).trans
        (configureF_ext a _ gap lg)).trans (addImpliesCts_ext _ _ _ _ _ _ _)
  | .inv a, m, gap, lg =>
      ((ensureContinuousVal_ext m _).trans
        (configureF_ext a _ gap lg)).trans (addImpliesCts_ext _ _ _ _ _ _ _)
  | .delta a, m, gap, lg =>
      ((ensureContinuousVal_ext m _).trans
        (configureF_ext a _ gap lg)).trans (addDeltaCts_ext _ _ _ _ _)
  | .nabla a, m, gap, lg =>
      ((ensureContinuousVal_ext m _).trans
        (configureF_ext a _ gap lg)).trans (addNablaCts_ext _ _ _ _ _)
  | .coef c a, m, gap, lg =>
      ((ensureContinuousVal_ext m _).trans
        (configureF_ext a _ gap lg)).trans (addCoefCts_ext _ _ _ _ _)
  | .exp e a, m, gap, lg =>
      ((ensureContinuousVal_ext m _).trans
        (configureF_ext a _ gap lg)).trans (addExpCts_ext _ _ _ _ _)

theorem configureList_ext : ∀ (l : List Formula) (m : Model) (gap : MExpr)
    (lg : Logic), ModelExt m (configureList l m gap lg).1
  | [], m, _, _ => ModelExt.refl m
  | f :: fs, m, gap, lg =>
      (configureF_ext f m gap lg).trans (configureList_ext fs _ gap lg)

end

theorem sentenceConfigure_eq (s : SSentence) (m : Model) (gap : MExpr)
    (lg : Logic) :
    s.configure m gap lg =
      { (configureF s.formula m gap lg).1 with
        vars := (configureF s.formula m gap lg).1.vars
          ++ (selectorNames (reprStr s.formula ++ ".active_interval")
                s.intervals.length).map (fun n => ⟨n, .binary, 0, 1⟩),
        ctrs := (configureF s.formula m gap lg).1.ctrs
          ++ [.plain none
                ⟨.sumE ((selectorNames (reprStr s.formula ++ ".active_interval")
                    s.intervals.length).map MExpr.var), .ceq, .lit 1⟩]
          ++ (s.intervals.zip (selectorNames (reprStr s.formula ++ ".active_interval")
                s.intervals.length)).flatMap
              (fun p => insideCtrList p.1 gap (configureF s.formula m gap lg).2 p.2) } := by
  rw [SSentence.configure, foldl_interval_configure]
  simp [Model.binaryVarList, Model.addCt]

theorem sentenceCompliment_eq (s : SSentence) (m : Model) (gap : MExpr)
    (lg : Logic) :
    s.compliment m gap lg =
      { (configureF s.formula m gap lg).1 with
        vars := (configureF s.formula m gap lg).1.vars
          ++ (selectorNames (reprStr s.formula ++ ".active_interval")
                s.intervals.length).map (fun n => ⟨n, .binary, 0, 1⟩),
        ctrs := (configureF s.formula m gap lg).1.ctrs
          ++ (s.intervals.zip (selectorNames (reprStr s.formula ++ ".active_interval")
                s.intervals.length)).flatMap
              (fun p => outsideCtrList p.1 gap (configureF s.formula m gap lg).2 p.2) } := by
  rw [SSentence.compliment, foldl_interval_compliment]
  simp [Model.binaryVarList]

theorem exists_append_assoc {α : Type} (A B C : List α) :
    ∃ e, (A ++ B) ++ C = A ++ e := ⟨B ++ C, by simp⟩

theorem sentence_configure_ext (s : SSentence) (m : Model) (gap : MExpr)
    (lg : Logic) : ModelExt m (s.configure m gap lg) := by
  rw [sentenceConfigure_eq]
  refine (configureF_ext s.formula m gap lg).trans ⟨⟨_, rfl⟩, ?_, rfl⟩
  exact exists_append_assoc _ _ _

theorem sentence_compliment_ext (s : SSentence) (m : Model) (gap : MExpr)
    (lg : Logic) : ModelExt m (s.compliment m gap lg) := by
  rw [sentenceCompliment_eq]
  refine (configureF_ext s.formula m gap lg).trans ?_
  exact ⟨⟨_, rfl⟩, ⟨_, rfl⟩, rfl⟩

theorem foldl_sentences_ext (l : List SSentence) (m : Model) (gap : MExpr)
    (lg : Logic) :
    ModelExt m (l.foldl (fun mm s => s.configure mm gap lg) m) := by
  induction l generalizing m with
  | nil => exact ModelExt.refl m
  | cons s ss ih =>
      exact (sentence_configure_ext s m gap lg).trans (ih _)

/-! ### The theory object and the decision driver -/

/-- A `Theory`: its sentences plus the `m`/`gap` attributes the driver
stores (`None` until the first decision call). -/
structure Thy where
  sentences : List SSentence
  m : Option Model
  gap : Option String

/-- `Theory.__init__`: formulae coerce to sentences with truth value
exactly 1; `self.m = None`, `self.gap = None`. -/
def theoryInit (args : List (SSentence ⊕ Formula)) : Thy :=
  ⟨args.map (fun a => match a with
      | .inl s => s
      | .inr f => ⟨f, [pointInit 1]⟩), none, none⟩

/-- Coerce an `entails` query argument, as the driver does. -/
def coerceQuery : SSentence ⊕ Formula → SSentence
  | .inl s => s
  | .inr f => ⟨f, [pointInit 1]⟩

/-- The tolerance `1e-8` of `Theory.entails`. -/
def epsTol : ℚ := 1 / 100000000

/-- The MILP built by one `entails` call: a fresh model, the continuous
`gap ∈ [0,1]` variable, every premise encoded positively, the query (if
any) encoded negatively, and `maximize gap`. -/
def entailsModel (t : Thy) (query : Option (SSentence ⊕ Formula)) (lg : Logic) :
    Model :=
  let q := query.map coerceQuery
  let m1 := emptyModel.continuousVar 0 1 "gap"
  let m2 := t.sentences.foldl (fun m s => s.configure m (.var "gap") lg) m1
  let m3 := match q with
    | none => m2
    | some qs => qs.compliment m2 (.var "gap") lg
  { m3 with objective := some (.var "gap") }

/-- `Theory.entails`: build the model, hand it to the external solver,
and return `not (solved and gap.solution_value > 1e-8)`; the model and
gap variable are stored on the theory object. -/
def Thy.entails (t : Thy) (query : Option (SSentence ⊕ Formula)) (lg : Logic)
    (solver : Model → Option (String → ℚ)) : Bool × Thy :=
  let m4 := entailsModel t query lg
  let res := match solver m4 with
    | none => true
    | some sol => !(decide (sol "gap" > epsTol))
  (res, { t with m := some m4, gap := some "gap" })

/-- `Theory.satisfiable`: `not entails(None)`. -/
def Thy.satisfiable (t : Thy) (lg : Logic)
    (solver : Model → Option (String → ℚ)) : Bool × Thy :=
  let r := t.entails none lg solver
  (!r.1, r.2)


/-- C1: for every theory, optional query and solver behaviour, `entails`
builds a fresh MILP whose first declared variable is the continuous gap
variable with bounds `[0,1]`, whose objective is `maximize gap`, and
returns `true` exactly when the solver reports no solution or the found
solution's gap value is at most `1e-8` — i.e. the returned boolean equals
`not (solved and gap.value > 1e-8)`. -/
theorem c1_entails_gap_decision (t : Thy) (query : Option (SSentence ⊕ Formula))
    (lg : Logic) (solver : Model → Option (String → ℚ)) :
    ((t.entails query lg solver).1 = true ↔
      (solver (entailsModel t query lg) = none ∨
       ∃ sol, solver (entailsModel t query lg) = some sol ∧ sol "gap" ≤ epsTol)) ∧
    (t.entails query lg solver).1
      = !((solver (entailsModel t query lg)).isSome
          && ((solver (entailsModel t query lg)).elim false
                (fun sol => decide (sol "gap" > epsTol)))) ∧
    (entailsModel t query lg).vars.head? = some ⟨"gap", .continuous, 0, 1⟩ ∧
    (entailsModel t query lg).objective = some (.var "gap") := by
  refine ⟨?_, ?_, ?_, rfl⟩
  · rw [Thy.entails]
    cases hs : solver (entailsModel t query lg) with
    | none => simp
    | some sol => simp [not_lt]
  · rw [Thy.entails]
    cases hs : solver (entailsModel t query lg) with
    | none => simp
    | some sol => simp
  · rw [entailsModel]
    have hfold := foldl_sentences_ext t.sentences
      (emptyModel.continuousVar 0 1 "gap") (.var "gap") lg
    obtain ⟨⟨e1, hv1⟩, -, -⟩ := hfold
    cases hq : query.map coerceQuery with
    | none =>
        simp only [hq]
        rw [show ({ (t.sentences.foldl (fun m s => s.configure m (.var "gap") lg)
              (emptyModel.continuousVar 0 1 "gap")) with
            objective := some (.var "gap") } : Model).vars
          = (t.sentences.foldl (fun m s => s.configure m (.var "gap") lg)
              (emptyModel.continuousVar 0 1 "gap")).vars from rfl]
        rw [hv1]
        rfl
    | some qs =>
        simp only [hq]
        have hcomp := sentence_compliment_ext qs
          (t.sentences.foldl (fun m s => s.configure m (.var "gap") lg)
            (emptyModel.continuousVar 0 1 "gap")) (.var "gap") lg
        obtain ⟨⟨e2, hv2⟩, -, -⟩ := hcomp
        rw [show ({ (qs.compliment
              (t.sentences.foldl (fun m s => s.configure m (.var "gap") lg)
                (emptyModel.continuousVar 0 1 "gap")) (.var "gap") lg) with
            objective := some (.var "gap") } : Model).vars
          = (qs.compliment
              (t.sentences.foldl (fun m s => s.configure m (.var "gap") lg)
                (emptyModel.continuousVar 0 1 "gap")) (.var "gap") lg).vars from rfl]
        rw [hv2, hv1]
        rfl

/-- C7 counterexample: after `entails` returns, the per-call MILP model
and its gap variable are still referenced from the theory object
(`self.m` / `self.gap`), contradicting the claim that no reference to
them survives the call.  Shown at the concrete input: empty theory, no
query, a solver reporting infeasibility. -/
theorem c7_counterexample_model_survives :
    ((theoryInit []).entails none .LUKASIEWICZ (fun _ => none)).2.m ≠ none ∧
    ((theoryInit []).entails none .LUKASIEWICZ (fun _ => none)).2.m
      = some (entailsModel (theoryInit []) none .LUKASIEWICZ) ∧
    ((theoryInit []).entails none .LUKASIEWICZ (fun _ => none)).2.gap
      = some "gap" := by
  refine ⟨?_, rfl, rfl⟩
  rw [show ((theoryInit []).entails none .LUKASIEWICZ (fun _ => none)).2.m
        = some (entailsModel (theoryInit []) none .LUKASIEWICZ) from rfl]
  exact Option.some_ne_none _

/-- C7 (amended): the MILP model used by a decision is constructed fresh
at the start of each `entails`/`satisfiable` call, but it is not released
when the decision returns: references to the per-call model and its gap
variable survive the call in the theory's `m` and `gap` attributes
(the docstrings advertise them as remaining available for inspection),
each call overwriting the previous ones. -/
theorem c7_model_reference_stored (t : Thy) (query : Option (SSentence ⊕ Formula))
    (lg : Logic) (solver : Model → Option (String → ℚ)) :
    (t.entails query lg solver).2.m = some (entailsModel t query lg) ∧
    (t.entails query lg solver).2.gap = some "gap" ∧
    (t.entails query lg solver).2.sentences = t.sentences ∧
    (t.satisfiable lg solver).2.m = some (entailsModel t none lg) ∧
    (t.satisfiable lg solver).2.gap = some "gap" :=
  ⟨rfl, rfl, rfl, rfl, rfl⟩

/-! ## Cyclic formula graphs and cycle-safe printing (C8)

Formulae may be cyclic (a node's mutable operand list may reach the node
itself).  `Operator._annotate_recurrence` tags a node with the traversal
depth on entry (`self._depth`) and, on re-entry, emits
`'.' * (depth - self._depth + 1)`.  We model the object graph explicitly:
nodes live in a table and operand edges are indices; the tag store is the
traversal stack (a list of `(node, entry depth)` pairs). -/

/-- A node of a possibly-cyclic formula graph.  `Prop`/`Const` print
their payload and never annotate (they have no operands); every operator
node prints `ClassName(payload?, operand reprs, logic?)` exactly as
`Operator.__repr__`/`Coef.__repr__`/`Exp.__repr__` do, where the optional
scalar payload is used by `Coef`/`Exp`. -/
inductive GNode where
  | prop (name : String)
  | const (v : ℚ)
  | opNode (className : String) (payload : Option ℚ) (ops : List Nat)
      (logic : Option Logic)

/-- A formula object graph. -/
structure FGraph where
  nodes : List GNode

/-- The operand indices of a node. -/
def GNode.opsOf : GNode → List Nat
  | .opNode _ _ ops _ => ops
  | _ => []

/-- Well-formedness: all operand edges point into the table. -/
def FGraph.wf (g : FGraph) : Prop :=
  ∀ n ∈ g.nodes, ∀ i ∈ n.opsOf, i < g.nodes.length

instance (g : FGraph) : Decidable g.wf := by
  unfold FGraph.wf
  infer_instance

/-- Look up a node's stacked entry depth (`self._depth`). -/
def lookupStack (stack : List (Nat × Nat)) (id : Nat) : Option Nat :=
  (stack.find? (fun p => p.1 == id)).map (·.2)

mutual

/-- Cycle-safe `repr` of graph node `id` at traversal depth `depth`,
with the stack of currently-open nodes; `none` only on fuel exhaustion
or a dangling operand index. -/
def reprG (g : FGraph) : Nat → List (Nat × Nat) → Nat → Nat →
    Option (List Char)
  | 0, _, _, _ => none
  | fuel + 1, stack, id, depth =>
    match g.nodes[id]? with
    | none => none
    | some (.prop n) => some ("Prop(".data ++ pyStrRepr n.data ++ ")".data)
    | some (.const v) => some ("Const(".data ++ ratChars v ++ ")".data)
    | some (.opNode cls payload ops lg) =>
      match lookupStack stack id with
      | some d0 =>
          some (List.replicate (((depth : Int) - (d0 : Int) + 1).toNat) '.')
      | none =>
          (reprListG g fuel ((id, depth) :: stack) ops (depth + 1)).map
            fun parts =>
              cls.data ++ '(' ::
                (joinArgs ((payload.map ratChars).toList ++ parts ++ logicArg lg)
                  ++ [')'])

/-- `repr` of a list of operand nodes, in order. -/
def reprListG (g : FGraph) : Nat → List (Nat × Nat) → List Nat → Nat →
    Option (List (List Char))
  | 0, _, _, _ => none
  | _ + 1, _, [], _ => some []
  | fuel + 1, stack, i :: rest, depth =>
    (reprG g fuel stack i depth).bind fun s =>
      (reprListG g fuel stack rest depth).map fun ps => s :: ps

end

mutual

theorem reprG_mono_step (g : FGraph) : ∀ (fuel : Nat) (stack : List (Nat × Nat))
    (id depth : Nat) (s : List Char),
    reprG g fuel stack id depth = some s →
    reprG g (fuel + 1) stack id depth = some s
  | 0, _, _, _, _, h => by simp [reprG] at h
  | fuel + 1, stack, id, depth, s, h => by
      rw [reprG] at h ⊢
      cases hn : g.nodes[id]? with
      | none => simp [hn] at h
      | some node =>
          simp only [hn] at h ⊢
          cases node with
          | prop n => exact h
          | const v => exact h
          | opNode cls payload ops lg =>
              cases hl : lookupStack stack id with
              | some d0 => simp only [hl] at h ⊢; exact h
              | none =>
                  simp only [hl] at h ⊢
                  cases hr : reprListG g fuel ((id, depth) :: stack) ops (depth + 1) with
                  | none => simp [hr] at h
                  | some parts =>
                      rw [reprListG_mono_step g fuel _ _ _ parts hr]
                      simp only [hr] at h
                      exact h

theorem reprListG_mono_step (g : FGraph) : ∀ (fuel : Nat)
    (stack : List (Nat × Nat)) (ops : List Nat) (depth : Nat)
    (ps : List (List Char)),
    reprListG g fuel stack ops depth = some ps →
    reprListG g (fuel + 1) stack ops depth = some ps
  | 0, _, _, _, _, h => by simp [reprListG] at h
  | fuel + 1, stack, [], depth, ps, h => by
      rw [reprListG] at h ⊢
      exact h
  | fuel + 1, stack, i :: rest, depth, ps, h => by
      rw [reprListG] at h ⊢
      cases hr : reprG g fuel stack i depth with
      | none => simp [hr] at h
      | some s =>
          simp only [hr] at h
          cases hrl : reprListG g fuel stack rest depth with
          | none => simp [hrl] at h
          | some ps0 =>
              rw [reprG_mono_step g fuel _ _ _ _ hr,
                reprListG_mono_step g fuel _ _ _ _ hrl]
              simp only [hrl] at h
              exact h

end

theorem reprG_mono (g : FGraph) (fuel fuel' : Nat) (stack : List (Nat × Nat))
    (id depth : Nat) (s : List Char) (hle : fuel ≤ fuel')
    (h : reprG g fuel stack id depth = some s) :
    reprG g fuel' stack id depth = some s := by
  induction fuel', hle using Nat.le_induction with
  | base => exact h
  | succ n hn ih => exact reprG_mono_step g n stack id depth s ih

theorem reprListG_mono (g : FGraph) (fuel fuel' : Nat)
    (stack : List (Nat × Nat)) (ops : List Nat) (depth : Nat)
    (ps : List (List Char)) (hle : fuel ≤ fuel')
    (h : reprListG g fuel stack ops depth = some ps) :
    reprListG g fuel' stack ops depth = some ps := by
  induction fuel', hle using Nat.le_induction with
  | base => exact h
  | succ n hn ih => exact reprListG_mono_step g n stack ops depth ps ih

theorem nodup_lt_length_le {l : List Nat} {n : Nat} (hnd : l.Nodup)
    (hlt : ∀ x ∈ l, x < n) : l.length ≤ n := by
  have h1 : l.toFinset.card = l.length := List.toFinset_card_of_nodup hnd
  have h2 : l.toFinset ⊆ Finset.range n := by
    intro x hx
    simp only [List.mem_toFinset] at hx
    simp only [Finset.mem_range]
    exact hlt x hx
  have := Finset.card_le_card h2
  simp only [Finset.card_range] at this
  omega

theorem lookupStack_none_not_mem {stack : List (Nat × Nat)} {id : Nat}
    (h : lookupStack stack id = none) : id ∉ stack.map Prod.fst := by
  intro hmem
  simp only [List.mem_map] at hmem
  obtain ⟨p, hp, hfst⟩ := hmem
  simp only [lookupStack, Option.map_eq_none', List.find?_eq_none] at h
  exact absurd (by simp [hfst]) (h p hp)

theorem reprListG_of_nodes (g : FGraph) (stack : List (Nat × Nat))
    (hnode : ∀ i depth, i < g.nodes.length →
      ∃ fuel s, ∀ fuel', fuel ≤ fuel' → reprG g fuel' stack i depth = some s) :
    ∀ ops depth, (∀ i ∈ ops, i < g.nodes.length) →
      ∃ fuel ps, ∀ fuel', fuel ≤ fuel' →
        reprListG g fuel' stack ops depth = some ps := by
  intro ops
  induction ops with
  | nil =>
      intro depth _
      refine ⟨1, [], ?_⟩
      intro fuel' hf
      obtain ⟨k, rfl⟩ : ∃ k, fuel' = k + 1 := ⟨fuel' - 1, by omega⟩
      rw [reprListG]
  | cons i rest ih =>
      intro depth hops
      obtain ⟨f1, s, hs⟩ := hnode i depth (hops i (by simp))
      obtain ⟨f2, ps, hps⟩ := ih depth (fun j hj => hops j (by simp [hj]))
      refine ⟨max f1 f2 + 1, s :: ps, ?_⟩
      intro fuel' hf
      obtain ⟨k, rfl⟩ : ∃ k, fuel' = k + 1 := ⟨fuel' - 1, by omega⟩
      rw [reprListG, hs k (by omega), hps k (by omega)]
      rfl

theorem reprG_node_step (g : FGraph) (hwf : g.wf) (stack : List (Nat × Nat))
    (id depth : Nat) (hid : id < g.nodes.length)
    (hlist : lookupStack stack id = none →
      ∀ ops depth', (∀ i ∈ ops, i < g.nodes.length) →
        ∃ fuel ps, ∀ fuel', fuel ≤ fuel' →
          reprListG g fuel' ((id, depth) :: stack) ops depth' = some ps) :
    ∃ fuel s, ∀ fuel', fuel ≤ fuel' → reprG g fuel' stack id depth = some s := by
  obtain ⟨node, hn⟩ : ∃ node, g.nodes[id]? = some node := by
    exact ⟨g.nodes[id], List.getElem?_eq_getElem hid⟩
  cases node with
  | prop n =>
      refine ⟨1, "Prop(".data ++ pyStrRepr n.data ++ ")".data, ?_⟩
      intro fuel' hf
      obtain ⟨k, rfl⟩ : ∃ k, fuel' = k + 1 := ⟨fuel' - 1, by omega⟩
      rw [reprG]
      simp [hn]
  | const v =>
      refine ⟨1, "Const(".data ++ ratChars v ++ ")".data, ?_⟩
      intro fuel' hf
      obtain ⟨k, rfl⟩ : ∃ k, fuel' = k + 1 := ⟨fuel' - 1, by omega⟩
      rw [reprG]
      simp [hn]
  | opNode cls payload ops lg =>
      cases hl : lookupStack stack id with
      | some d0 =>
          refine ⟨1, List.replicate (((depth : Int) - (d0 : Int) + 1).toNat) '.', ?_⟩
          intro fuel' hf
          obtain ⟨k, rfl⟩ : ∃ k, fuel' = k + 1 := ⟨fuel' - 1, by omega⟩
          rw [reprG]
          simp [hn, hl]
      | none =>
          have hopsvalid : ∀ i ∈ ops, i < g.nodes.length := by
            intro i hi
            have hmem : GNode.opNode cls payload ops lg ∈ g.nodes := by
              have := List.getElem?_mem hn
              exact this
            exact hwf _ hmem i (by simp [GNode.opsOf, hi])
          obtain ⟨f0, ps, hps⟩ := hlist hl ops (depth + 1) hopsvalid
          refine ⟨f0 + 1,
            cls.data ++ '(' ::
              (joinArgs ((payload.map ratChars).toList ++ ps ++ logicArg lg)
                ++ [')']), ?_⟩
          intro fuel' hf
          obtain ⟨k, rfl⟩ : ∃ k, fuel' = k + 1 := ⟨fuel' - 1, by omega⟩
          rw [reprG]
          simp only [hn, hl]
          rw [hps k (by omega)]
          rfl

theorem reprG_terminates_aux (g : FGraph) (hwf : g.wf) :
    ∀ R : Nat,
      (∀ stack id depth,
        (stack.map Prod.fst).Nodup →
        (∀ p ∈ stack, p.1 < g.nodes.length) →
        id < g.nodes.length →
        g.nodes.length - stack.length ≤ R →
        ∃ fuel s, ∀ fuel', fuel ≤ fuel' →
          reprG g fuel' stack id depth = some s) := by
  intro R
  induction R with
  | zero =>
      intro stack id depth hnd hlt hid hR
      apply reprG_node_step g hwf stack id depth hid
      intro hunstacked ops depth' hops
      exfalso
      have hlen : stack.length + 1 ≤ g.nodes.length := by
        have hnodup : (stack.map Prod.fst ++ [id]).Nodup := by
          rw [List.nodup_append]
          exact ⟨hnd, List.nodup_singleton id,
            by
              intro x hx
              simp only [List.mem_singleton]
              intro hxid
              subst hxid
              exact lookupStack_none_not_mem hunstacked hx⟩
        have hall : ∀ x ∈ stack.map Prod.fst ++ [id], x < g.nodes.length := by
          intro x hx
          rcases List.mem_append.mp hx with h | h
          · simp only [List.mem_map] at h
            obtain ⟨p, hp, rfl⟩ := h
            exact hlt p hp
          · simp only [List.mem_singleton] at h
            subst h
            exact hid
        have := nodup_lt_length_le hnodup hall
        simp at this
        omega
      omega
  | succ R ih =>
      intro stack id depth hnd hlt hid hR
      apply reprG_node_step g hwf stack id depth hid
      intro hunstacked ops depth' hops
      apply reprListG_of_nodes g ((id, depth) :: stack)
      · intro i d hi
        apply ih ((id, depth) :: stack) i d
        · simp only [List.map_cons, List.nodup_cons]
          exact ⟨lookupStack_none_not_mem hunstacked, hnd⟩
        · intro p hp
          rcases List.mem_cons.mp hp with h | h
          · subst h; exact hid
          · exact hlt p h
        · exact hi
        · simp only [List.length_cons]
          omega
      · exact hops

/-- C8: on every well-formed (possibly cyclic) formula graph, `repr`
traversal terminates — for every node there is a fuel bound past which
the cycle-safe printer returns a definite string — and whenever the
traversal re-enters a node already on the traversal stack at entry depth
`d0`, it emits a placeholder of exactly `depth - d0 + 1` dot characters
(the stack-depth difference plus one). -/
theorem c8_cycle_safe_printing (g : FGraph) (hwf : g.wf) :
    (∀ id depth, id < g.nodes.length →
      ∃ fuel s, ∀ fuel', fuel ≤ fuel' → reprG g fuel' [] id depth = some s) ∧
    (∀ fuel stack id depth d0 cls payload ops lg,
      g.nodes[id]? = some (.opNode cls payload ops lg) →
      lookupStack stack id = some d0 →
      d0 ≤ depth →
      1 ≤ fuel →
      reprG g fuel stack id depth
        = some (List.replicate (depth - d0 + 1) '.')) := by
  constructor
  · intro id depth hid
    exact reprG_terminates_aux g hwf g.nodes.length [] id depth
      (by simp) (by simp) hid (by simp)
  · intro fuel stack id depth d0 cls payload ops lg hn hl hd hf
    obtain ⟨k, rfl⟩ : ∃ k, fuel = k + 1 := ⟨fuel - 1, by omega⟩
    rw [reprG]
    simp only [hn, hl]
    have : (((depth : Int) - (d0 : Int) + 1).toNat) = depth - d0 + 1 := by omega
    rw [this]

/-- The cyclic example from the `Formula.__repr__` docstring:
`f = Or(); f.operands = [f, Not(f)]`. -/
def gEx : FGraph :=
  ⟨[.opNode "Or" none [0, 1] none, .opNode "Not" none [0] none]⟩

theorem c8_cycle_safe_printing_witness :
    gEx.wf ∧ 0 < gEx.nodes.length ∧
    (∃ fuel s, ∀ fuel', fuel ≤ fuel' → reprG gEx fuel' [] 0 0 = some s) ∧
    reprG gEx 6 [] 0 0 = some "Or(.., Not(...))".data :=
  ⟨by decide, by decide,
   (c8_cycle_safe_printing gEx (by decide)).1 0 0 (by decide),
   by decide⟩

/-! ## The specialization filter (`all_axioms.py`, C5)

`specializes(f, a, req, mappings)` decides whether candidate `f`
specializes axiom `a`, threading partial prop-to-subformula mappings.
The recursion is embedded with explicit fuel (the source recursion
always terminates; any fuel at least the bound used in the theorems
below gives the source behaviour). -/

/-- The proposition name `p<i>` used by the enumerator. -/
def pName (i : Nat) : String := "p" ++ (⟨natChars i⟩ : String)

/-- `index(p) = int(p.name[1:])`.  (On names whose tail is not a decimal
numeral the source raises `ValueError`; the enumerator only builds
`p<digits>` names.) -/
def pIndex (s : String) : Nat :=
  (s.data.drop 1).foldl (fun acc c => 10 * acc + digitVal c) 0

theorem pIndex_pName (i : Nat) : pIndex (pName i) = i := by
  have hdata : (pName i).data = 'p' :: natChars i := by
    simp [pName]
  rw [pIndex, hdata]
  simp only [List.drop_succ_cons, List.drop_zero]
  by_cases h0 : i = 0
  · subst h0; decide
  · rw [natChars, if_neg h0]
    rw [foldl_digits_eq_val _ (fun d hd => natDigitsRev_lt_ten i i d hd)]
    exact valDigitsRev_natDigitsRev i i le_rfl

mutual

/-- `degree(f)`: the maximum used proposition index plus one.  (The
source's `max(map(degree, f.operands))` raises on a nullary operator;
the enumerator never builds one, and the embedding returns 0 there.) -/
def degreeF : Formula → Nat
  | .prop n => pIndex n + 1
  | .const _ => 0
  | .and_ l _ => degreeL l
  | .weakAnd l => degreeL l
  | .or_ l _ => degreeL l
  | .weakOr l => degreeL l
  | .implies a b _ => max (degreeF a) (degreeF b)
  | .equiv a b _ => max (degreeF a) (degreeF b)
  | .not_ a _ => degreeF a
  | .inv a => degreeF a
  | .delta a => degreeF a
  | .nabla a => degreeF a
  | .coef _ a => degreeF a
  | .exp _ a => degreeF a

/-- `max` of the degrees of an operand list. -/
def degreeL : List Formula → Nat
  | [] => 0
  | f :: fs => max (degreeF f) (degreeL fs)

end

/-- `neg(f)`: strip a `Not` (or its subclass `Inv`), else wrap in
`Not`. -/
def negF : Formula → Formula
  | .not_ a _ => a
  | .inv a => a
  | f => .not_ f none

/-- The `TruthReq` lattice of `all_axioms.py`. -/
inductive TruthReq where
  | EQUAL
  | AT_LEAST
  | AT_MOST
deriving DecidableEq

/-- `TruthReq.neg`: `TruthReq(-value)`. -/
def TruthReq.neg : TruthReq → TruthReq
  | .EQUAL => .EQUAL
  | .AT_LEAST => .AT_MOST
  | .AT_MOST => .AT_LEAST

/-- `specializes(f, a, req, mappings)` with explicit fuel.  Returned is
the list of extended mappings; the call "succeeds" when it is
nonempty. -/
def specializes : Nat → Formula → Formula → TruthReq →
    List (List (Option Formula)) → List (List (Option Formula))
  | 0, _, _, _, _ => []
  | fuel + 1, f, a, req, mappings =>
    let r1 : List (List (Option Formula)) :=
      match req with
      | .AT_LEAST =>
        match f with
        | .implies lhs rhs _ =>
            specializes fuel rhs a req mappings
              ++ specializes fuel (negF lhs) a req mappings
        | _ => []
      | _ => []
    let r2 : List (List (Option Formula)) :=
      match req with
      | .AT_MOST =>
        match f with
        | .not_ (.implies l r _) _ =>
            specializes fuel l a req mappings
              ++ specializes fuel (negF r) a req mappings
        | .inv (.implies l r _) =>
            specializes fuel l a req mappings
              ++ specializes fuel (negF r) a req mappings
        | _ => []
      | _ => []
    let rMain : List (List (Option Formula)) :=
      match a with
      | .prop n =>
          mappings.filterMap (fun mp =>
            match mp.getD (pIndex n) none with
            | none => some (mp.set (pIndex n) (some f))
            | some g => if g = f then some (mp.set (pIndex n) (some f)) else none)
      | .not_ aarg _ => specializes fuel (negF f) aarg req.neg mappings
      | .inv aarg => specializes fuel (negF f) aarg req.neg mappings
      | .implies a1 a2 _ =>
          match f with
          | .implies f1 f2 _ =>
              let lhsMappings := specializes fuel f1 a1 req.neg mappings
              let d1 := specializes fuel f2 a2 req lhsMappings
              let rhsMappings := specializes fuel (negF f2) a1 req.neg mappings
              let d2 := specializes fuel (negF f1) a2 req rhsMappings
              d1 ++ d2
          | _ => if a = f then mappings else []
      | _ => if a = f then mappings else []
    r1 ++ r2 ++ rMain

/-- `specializes(f, a, req)` with the default
`mappings = [[None] * degree(a)]`. -/
def specializesTop (fuel : Nat) (f a : Formula) (req : TruthReq) :
    List (List (Option Formula)) :=
  specializes fuel f a req [List.replicate (degreeF a) none]

mutual

/-- Uniform substitution of a formula for every proposition, by name. -/
def substF (σ : String → Formula) : Formula → Formula
  | .prop n => σ n
  | .const v => .const v
  | .and_ l lg => .and_ (substL σ l) lg
  | .weakAnd l => .weakAnd (substL σ l)
  | .or_ l lg => .or_ (substL σ l) lg
  | .weakOr l => .weakOr (substL σ l)
  | .implies a b lg => .implies (substF σ a) (substF σ b) lg
  | .equiv a b lg => .equiv (substF σ a) (substF σ b) lg
  | .not_ a lg => .not_ (substF σ a) lg
  | .inv a => .inv (substF σ a)
  | .delta a => .delta (substF σ a)
  | .nabla a => .nabla (substF σ a)
  | .coef c a => .coef c (substF σ a)
  | .exp e a => .exp e (substF σ a)

def substL (σ : String → Formula) : List Formula → List Formula
  | [] => []
  | f :: fs => substF σ f :: substL σ fs

end

/-- C5 counterexample, at the concrete input `f = Prop('p0')`,
`a = Not(Prop('p0'))`: `specializes(f, a)` succeeds (it binds
`p0 ↦ Not(p0)` by negating `f`), yet no uniform substitution of
subformulae for the Props of `a` yields `f` structurally — a
substitution instance of `Not(p0)` is always a `Not` node, never a bare
`Prop`.  Hence "succeeds exactly when a uniform substitution yields `f`"
is false, as is the description that an operator in `a` requires the
same variant in `f`. -/
theorem c5_counterexample_not_pattern :
    specializesTop 4 (.prop (pName 0)) (.not_ (.prop (pName 0)) none) .EQUAL ≠ [] ∧
    ∀ σ : String → Formula,
      substF σ (.not_ (.prop (pName 0)) none) ≠ .prop (pName 0) := by
  constructor
  · decide
  · intro σ h
    simp [substF] at h

/-- Patterns built from indexed Props and plain `Implies` — the shape of
candidate axiom operands the direct-matching branches handle. -/
inductive IsPat : Formula → Prop where
  | prop (i : Nat) : IsPat (.prop (pName i))
  | implies {a b : Formula} : IsPat a → IsPat b → IsPat (.implies a b none)

/-- The proposition indices of a pattern. -/
def patIdx : Formula → List Nat
  | .prop n => [pIndex n]
  | .implies a b _ => patIdx a ++ patIdx b
  | _ => []

/-- Height of a pattern (fuel bound). -/
def patHeight : Formula → Nat
  | .implies a b _ => 1 + max (patHeight a) (patHeight b)
  | _ => 0

/-- Record the substitution bindings of a pattern into a mapping. -/
def updOn (σ : String → Formula) : Formula → List (Option Formula) →
    List (Option Formula)
  | .prop n, mp => mp.set (pIndex n) (some (σ n))
  | .implies a b _, mp => updOn σ b (updOn σ a mp)
  | _, mp => mp

theorem updOn_length (σ : String → Formula) :
    ∀ (a : Formula) (mp : List (Option Formula)),
      (updOn σ a mp).length = mp.length
  | .prop n, mp => by simp [updOn]
  | .implies a b lg, mp => by
      rw [updOn, updOn_length σ b, updOn_length σ a]
  | .const _, mp => rfl
  | .and_ _ _, mp => rfl
  | .weakAnd _, mp => rfl
  | .or_ _ _, mp => rfl
  | .weakOr _, mp => rfl
  | .equiv _ _ _, mp => rfl
  | .not_ _ _, mp => rfl
  | .inv _, mp => rfl
  | .delta _, mp => rfl
  | .nabla _, mp => rfl
  | .coef _ _, mp => rfl
  | .exp _ _, mp => rfl

theorem patIdx_lt_degree {a : Formula} (h : IsPat a) :
    ∀ j ∈ patIdx a, j < degreeF a := by
  induction h with
  | prop i =>
      intro j hj
      simp only [patIdx, List.mem_singleton] at hj
      subst hj
      simp [degreeF]
  | implies ha hb iha ihb =>
      intro j hj
      simp only [patIdx, List.mem_append] at hj
      rw [show degreeF (.implies _ _ none) = max (degreeF _) (degreeF _) from rfl]
      rcases hj with h | h
      · exact lt_max_of_lt_left (iha j h)
      · exact lt_max_of_lt_right (ihb j h)

theorem updOn_getD (σ : String → Formula) {a : Formula} (hpat : IsPat a) :
    ∀ (mp : List (Option Formula)) (j : Nat),
      (∀ i ∈ patIdx a, i < mp.length) →
      (updOn σ a mp).getD j none
        = if j ∈ patIdx a then some (σ (pName j)) else mp.getD j none := by
  induction hpat with
  | prop i =>
      intro mp j hbound
      have hib : i < mp.length := by
        apply hbound
        simp [patIdx, pIndex_pName]
      rw [show updOn σ (.prop (pName i)) mp
            = mp.set (pIndex (pName i)) (some (σ (pName i))) from rfl]
      rw [pIndex_pName]
      simp only [patIdx, pIndex_pName, List.mem_singleton]
      rw [List.getD_eq_getElem?_getD, List.getElem?_set]
      by_cases hij : j = i
      · subst hij
        simp [hib]
      · simp only [List.getD_eq_getElem?_getD]
        rw [if_neg (fun hcon => hij hcon.symm), if_neg hij]
  | @implies a b ha hb iha ihb =>
      intro mp j hbound
      have hbl : ∀ i ∈ patIdx a, i < mp.length := fun i hi =>
        hbound i (by simp only [patIdx, List.mem_append]; exact Or.inl hi)
      have hbr : ∀ i ∈ patIdx b, i < (updOn σ a mp).length := by
        rw [updOn_length]
        exact fun i hi =>
          hbound i (by simp only [patIdx, List.mem_append]; exact Or.inr hi)
      rw [show updOn σ (.implies a b none) mp = updOn σ b (updOn σ a mp) from rfl]
      rw [ihb _ j hbr, iha mp j hbl]
      simp only [patIdx, List.mem_append]
      by_cases hjr : j ∈ patIdx b
      · rw [if_pos hjr, if_pos (Or.inr hjr)]
      · rw [if_neg hjr]
        by_cases hjl : j ∈ patIdx a
        · rw [if_pos hjl, if_pos (Or.inl hjl)]
        · rw [if_neg hjl, if_neg (by rintro (h | h) <;> [exact hjl h; exact hjr h])]

theorem specializes_complete_aux {a : Formula} (hpat : IsPat a) :
    ∀ (σ : String → Formula) (fuel : Nat)
      (mappings : List (List (Option Formula))) (mp : List (Option Formula)),
      patHeight a < fuel →
      mp ∈ mappings →
      (∀ j ∈ patIdx a, j < mp.length) →
      (∀ j ∈ patIdx a,
        mp.getD j none = none ∨ mp.getD j none = some (σ (pName j))) →
      updOn σ a mp ∈ specializes fuel (substF σ a) a .EQUAL mappings := by
  induction hpat with
  | prop i =>
      intro σ fuel mappings mp hfuel hmp hbound hcompat
      obtain ⟨k, rfl⟩ : ∃ k, fuel = k + 1 := ⟨fuel - 1, by omega⟩
      show updOn σ (.prop (pName i)) mp ∈
        mappings.filterMap (fun mp0 =>
          match mp0.getD (pIndex (pName i)) none with
          | none => some (mp0.set (pIndex (pName i))
              (some (substF σ (.prop (pName i)))))
          | some g =>
              if g = substF σ (.prop (pName i)) then
                some (mp0.set (pIndex (pName i))
                  (some (substF σ (.prop (pName i)))))
              else none)
      apply List.mem_filterMap.mpr
      refine ⟨mp, hmp, ?_⟩
      have hci := hcompat (pIndex (pName i)) (by simp [patIdx])
      have hn : pName (pIndex (pName i)) = pName i := by rw [pIndex_pName]
      rw [hn] at hci
      rcases hci with hc | hc
      · simp only [hc]
        rfl
      · simp only [hc]
        have hcond : σ (pName i) = substF σ (Formula.prop (pName i)) := rfl
        rw [if_pos hcond]
        rfl
  | @implies a b ha hb iha ihb =>
      intro σ fuel mappings mp hfuel hmp hbound hcompat
      obtain ⟨k, rfl⟩ : ∃ k, fuel = k + 1 := ⟨fuel - 1, by omega⟩
      have hfa : patHeight a < k := by
        rw [show patHeight (.implies a b none)
              = 1 + max (patHeight a) (patHeight b) from rfl] at hfuel
        omega
      have hfb : patHeight b < k := by
        rw [show patHeight (.implies a b none)
              = 1 + max (patHeight a) (patHeight b) from rfl] at hfuel
        omega
      have hbl : ∀ j ∈ patIdx a, j < mp.length := fun j hj =>
        hbound j (by simp only [patIdx, List.mem_append]; exact Or.inl hj)
      have hbr : ∀ j ∈ patIdx b, j < mp.length := fun j hj =>
        hbound j (by simp only [patIdx, List.mem_append]; exact Or.inr hj)
      have hcl : ∀ j ∈ patIdx a,
          mp.getD j none = none ∨ mp.getD j none = some (σ (pName j)) :=
        fun j hj =>
          hcompat j (by simp only [patIdx, List.mem_append]; exact Or.inl hj)
      have hcr : ∀ j ∈ patIdx b,
          mp.getD j none = none ∨ mp.getD j none = some (σ (pName j)) :=
        fun j hj =>
          hcompat j (by simp only [patIdx, List.mem_append]; exact Or.inr hj)
      have h1 := iha σ k mappings mp hfa hmp hbl hcl
      have h2 := ihb σ k (specializes k (substF σ a) a .EQUAL mappings)
        (updOn σ a mp) hfb h1
        (by rw [updOn_length]; exact hbr)
        (by intro j hj
            rw [updOn_getD σ ha mp j hbl]
            by_cases hja : j ∈ patIdx a
            · rw [if_pos hja]; right; rfl
            · rw [if_neg hja]; exact hcr j hj)
      show updOn σ (.implies a b none) mp ∈
        (specializes k (substF σ b) b .EQUAL
          (specializes k (substF σ a) a .EQUAL mappings))
        ++ (specializes k (negF (substF σ a)) b .EQUAL
          (specializes k (negF (substF σ b)) a .EQUAL mappings))
      exact List.mem_append_left _ h2

/-- C5 (amended): if there is a uniform substitution of subformulae for
the Props of `a` that yields `f` structurally, and `a` is built only
from indexed Props and `Implies` (direct-matching shapes), then
`specializes(f, a)` succeeds.  The converse direction of the original
claim is false (see the counterexample): the walk does not require an
operator in `a` to meet the same variant in `f` — a `Not` in `a` is
matched by negating `f` (stripping or wrapping a `Not`), an `Implies` in
`a` is additionally matched contrapositively, and any other operator
variant in `a` is compared by flat structural equality `a == f` rather
than by recursive descent. -/
theorem c5_pattern_substitution_specializes (a : Formula) (hpat : IsPat a)
    (σ : String → Formula) (fuel : Nat) (hfuel : patHeight a < fuel) :
    specializesTop fuel (substF σ a) a .EQUAL ≠ [] := by
  have hmem := specializes_complete_aux hpat σ fuel
    [List.replicate (degreeF a) none] (List.replicate (degreeF a) none)
    hfuel (by simp)
    (by intro j hj
        rw [List.length_replicate]
        exact patIdx_lt_degree hpat j hj)
    (by intro j hj
        left
        rw [List.getD_eq_getElem?_getD, List.getElem?_replicate]
        split <;> rfl)
  intro hcon
  rw [specializesTop] at hcon
  rw [hcon] at hmem
  exact absurd hmem (List.not_mem_nil _)

theorem c5_pattern_substitution_specializes_witness :
    IsPat (.implies (.prop (pName 0)) (.prop (pName 1)) none) ∧
    patHeight (.implies (.prop (pName 0)) (.prop (pName 1)) none) < 5 ∧
    specializesTop 5
      (substF (fun _ => .not_ (.prop "q") none)
        (.implies (.prop (pName 0)) (.prop (pName 1)) none))
      (.implies (.prop (pName 0)) (.prop (pName 1)) none) .EQUAL ≠ [] :=
  ⟨IsPat.implies (IsPat.prop 0) (IsPat.prop 1), by decide,
   c5_pattern_substitution_specializes _
     (IsPat.implies (IsPat.prop 0) (IsPat.prop 1))
     (fun _ => .not_ (.prop "q") none) 5 (by decide)⟩

/-! ### The axiom enumerator (`all_axioms.py`) -/

/-- `MAX_SIZE = 4`. -/
def MAX_SIZE : Nat := 4

/-- Fuel for `specializes` inside the enumerator's axiom check.  The
source recursion is unbounded but terminating; `1000` strictly
dominates the recursion depth reachable on the formulae a
`MAX_SIZE = 4` run builds. -/
def specFuel : Nat := 1000

/-- `itertools.permutations(l, k)`: all length-`k` sequences of
distinct elements of `l`, in emission order (for each first element in
list order, recurse on the list with that element removed). -/
def kpermsL : List Nat → Nat → List (List Nat)
  | _, 0 => [[]]
  | l, k + 1 =>
      l.flatMap (fun x => (kpermsL (l.erase x) k).map (fun p => x :: p))

/-- `itertools.combinations(l, k)`: all ascending `k`-element
subsequences of `l`, in lexicographic order. -/
def combs : List Nat → Nat → List (List Nat)
  | _, 0 => [[]]
  | [], _ + 1 => []
  | x :: xs, k + 1 => ((combs xs k).map (fun c => x :: c)) ++ combs xs (k + 1)

/-- One `perm` yielded by `all_perms`, functionally.  The source fills
a length-`size` buffer by slice assignment: the positions listed in
the ascending `merger` receive the fresh symbols
`n_symb_so_far + 0, n_symb_so_far + 1, …` in order, and every other
position receives the next element of `selection`.
`fillPerm nsym cnt sel mer pos t` emits the `cnt` entries at positions
`pos, pos + 1, …`, with `t` fresh symbols already placed.  The `[]`
fallbacks are unreachable on the well-formed arguments the enumerator
passes (`sel.length + mer.length = cnt`, `mer` ascending within
range). -/
def fillPerm (nsym : Nat) : Nat → List Nat → List Nat → Nat → Nat → List Nat
  | 0, _, _, _, _ => []
  | cnt + 1, sel, mer, pos, t =>
    match mer with
    | m :: mrest =>
        if pos = m then
          (nsym + t) :: fillPerm nsym cnt sel mrest (pos + 1) (t + 1)
        else
          match sel with
          | s :: srest => s :: fillPerm nsym cnt srest (m :: mrest) (pos + 1) t
          | [] => []
    | [] =>
        match sel with
        | s :: srest => s :: fillPerm nsym cnt srest [] (pos + 1) t
        | [] => []

/-- `all_perms(size, n_symb_so_far)`: for each `k` in
`0 … min(size, n_symb_so_far)`, each `k`-permutation `selection` of
`range(n_symb_so_far)` and each ascending `(size-k)`-subset `merger`
of `range(size)`, the interleaved renaming. -/
def all_permsL (size nsym : Nat) : List (List Nat) :=
  (List.range (min size nsym + 1)).flatMap (fun k =>
    (kpermsL (List.range nsym) k).flatMap (fun sel =>
      (combs (List.range size) (size - k)).map (fun mer =>
        fillPerm nsym size sel mer 0 0)))

mutual

/-- `apply_perm(f, perm)`: rename `Prop "p<i>"` to `Prop "p<perm[i]>"`
and rebuild operators over the mapped operands.  The source's rebuild
`type(f)(*operands)` passes no `logic` keyword, so any logic override
resets to `None`.  On `Coef`/`Exp` the source call would not re-supply
the scalar argument; the enumerator never builds those variants, and
the embedding keeps the scalar.  An out-of-range `perm[i]` would raise
`IndexError` in the source; the embedding totalises it with
`getD _ 0`. -/
def applyPerm : Formula → List Nat → Formula
  | .prop n, perm => .prop (pName (perm.getD (pIndex n) 0))
  | .const v, _ => .const v
  | .and_ l _, perm => .and_ (applyPermL l perm) none
  | .weakAnd l, perm => .weakAnd (applyPermL l perm)
  | .or_ l _, perm => .or_ (applyPermL l perm) none
  | .weakOr l, perm => .weakOr (applyPermL l perm)
  | .implies a b _, perm => .implies (applyPerm a perm) (applyPerm b perm) none
  | .equiv a b _, perm => .equiv (applyPerm a perm) (applyPerm b perm) none
  | .not_ a _, perm => .not_ (applyPerm a perm) none
  | .inv a, perm => .inv (applyPerm a perm)
  | .delta a, perm => .delta (applyPerm a perm)
  | .nabla a, perm => .nabla (applyPerm a perm)
  | .coef c a, perm => .coef c (applyPerm a perm)
  | .exp e a, perm => .exp e (applyPerm a perm)

/-- `apply_perm` mapped over an operand list. -/
def applyPermL : List Formula → List Nat → List Formula
  | [], _ => []
  | f :: fs, perm => applyPerm f perm :: applyPermL fs perm

end

mutual

/-- The claim's structural size measure:
`size(Prop) = size(Const) = 0`,
`size(Op(a, b, …)) = 1 + Σ size(operand)`. -/
def sizeF : Formula → Nat
  | .prop _ => 0
  | .const _ => 0
  | .and_ l _ => 1 + sizeL l
  | .weakAnd l => 1 + sizeL l
  | .or_ l _ => 1 + sizeL l
  | .weakOr l => 1 + sizeL l
  | .implies a b _ => 1 + (sizeF a + sizeF b)
  | .equiv a b _ => 1 + (sizeF a + sizeF b)
  | .not_ a _ => 1 + sizeF a
  | .inv a => 1 + sizeF a
  | .delta a => 1 + sizeF a
  | .nabla a => 1 + sizeF a
  | .coef _ a => 1 + sizeF a
  | .exp _ a => 1 + sizeF a

/-- Sum of the sizes of an operand list. -/
def sizeL : List Formula → Nat
  | [] => 0
  | f :: fs => sizeF f + sizeL fs

end

mutual

theorem sizeF_applyPerm : ∀ (f : Formula) (perm : List Nat),
    sizeF (applyPerm f perm) = sizeF f
  | .prop _, _ => rfl
  | .const _, _ => rfl
  | .and_ l _, perm => congrArg (fun t => 1 + t) (sizeL_applyPermL l perm)
  | .weakAnd l, perm => congrArg (fun t => 1 + t) (sizeL_applyPermL l perm)
  | .or_ l _, perm => congrArg (fun t => 1 + t) (sizeL_applyPermL l perm)
  | .weakOr l, perm => congrArg (fun t => 1 + t) (sizeL_applyPermL l perm)
  | .implies a b _, perm => by
      have ha := sizeF_applyPerm a perm
      have hb := sizeF_applyPerm b perm
      show 1 + (sizeF (applyPerm a perm) + sizeF (applyPerm b perm))
        = 1 + (sizeF a + sizeF b)
      rw [ha, hb]
  | .equiv a b _, perm => by
      have ha := sizeF_applyPerm a perm
      have hb := sizeF_applyPerm b perm
      show 1 + (sizeF (applyPerm a perm) + sizeF (applyPerm b perm))
        = 1 + (sizeF a + sizeF b)
      rw [ha, hb]
  | .not_ a _, perm => congrArg (fun t => 1 + t) (sizeF_applyPerm a perm)
  | .inv a, perm => congrArg (fun t => 1 + t) (sizeF_applyPerm a perm)
  | .delta a, perm => congrArg (fun t => 1 + t) (sizeF_applyPerm a perm)
  | .nabla a, perm => congrArg (fun t => 1 + t) (sizeF_applyPerm a perm)
  | .coef _ a, perm => congrArg (fun t => 1 + t) (sizeF_applyPerm a perm)
  | .exp _ a, perm => congrArg (fun t => 1 + t) (sizeF_applyPerm a perm)

theorem sizeL_applyPermL : ∀ (l : List Formula) (perm : List Nat),
    sizeL (applyPermL l perm) = sizeL l
  | [], _ => rfl
  | f :: fs, perm => by
      have h1 := sizeF_applyPerm f perm
      have h2 := sizeL_applyPermL fs perm
      show sizeF (applyPerm f perm) + sizeL (applyPermL fs perm)
        = sizeF f + sizeL fs
      rw [h1, h2]

end

/-- The oracle standing for `empty_theory.entails` that rejects every
candidate.  On the decisive level-1 prefix it agrees with the real
solver: neither `Implies(p0, p1)` nor `Implies(Not(p0), p1)` is a
tautology, so the real run also stores both in the table rather than
the axiom list. -/
def oracleFalse : Formula → Bool := fun _ => false

/-- `check_if_axiom(f)` acting on the state
`st = (axioms, formulae[-1])`: if some known axiom generalizes `f`
(a nonempty `specializes(f, a, AT_LEAST)`), the state is unchanged;
otherwise `f` joins `axioms` when the entailment oracle accepts it,
and the current table entry when it does not. -/
def checkIfAxiom (oracle : Formula → Bool)
    (st : List Formula × List Formula) (f : Formula) :
    List Formula × List Formula :=
  if st.1.any (fun a => !(specializesTop specFuel f a .AT_LEAST).isEmpty) then
    st
  else if oracle f then (st.1 ++ [f], st.2)
  else (st.1, st.2 ++ [f])

/-- Innermost loop body of `all_axioms` (one `perm`): check the
candidate `Implies(lhs, rhs')` always, and `Implies(Not(lhs), rhs')`
and `Implies(lhs, Not(rhs'))` under the source's symmetry-breaking
index guards, where `rhs' = apply_perm(rhs, perm)`. -/
def permStep (oracle : Formula → Bool) (size part i j : Nat)
    (lhs rhs : Formula) (st : List Formula × List Formula)
    (perm : List Nat) : List Formula × List Formula :=
  if 2 * part > size - 1 ∨ (2 * part = size - 1 ∧ i ≥ j) then
    checkIfAxiom oracle
      (if 2 * part < size - 1 ∨ (2 * part = size - 1 ∧ i ≤ j) then
        checkIfAxiom oracle
          (checkIfAxiom oracle st (.implies lhs (applyPerm rhs perm) none))
          (.implies (.not_ lhs none) (applyPerm rhs perm) none)
      else
        checkIfAxiom oracle st (.implies lhs (applyPerm rhs perm) none))
      (.implies lhs (.not_ (applyPerm rhs perm) none) none)
  else
    if 2 * part < size - 1 ∨ (2 * part = size - 1 ∧ i ≤ j) then
      checkIfAxiom oracle
        (checkIfAxiom oracle st (.implies lhs (applyPerm rhs perm) none))
        (.implies (.not_ lhs none) (applyPerm rhs perm) none)
    else
      checkIfAxiom oracle st (.implies lhs (applyPerm rhs perm) none)

/-- Loop over `perm in all_perms(rhs_degree, lhs_degree)` for the
`j`-th right-hand formula. -/
def jStep (oracle : Formula → Bool) (tables : List (List Formula))
    (size part i : Nat) (lhs : Formula)
    (st : List Formula × List Formula) (j : Nat) :
    List Formula × List Formula :=
  (all_permsL
      (degreeF ((tables.getD (size - part - 1) []).getD j (.prop "p0")))
      (degreeF lhs)).foldl
    (permStep oracle size part i j lhs
      ((tables.getD (size - part - 1) []).getD j (.prop "p0"))) st

/-- Loop over `j in range(len(formulae[size - part - 1]))` for the
`i`-th left-hand formula. -/
def iStep (oracle : Formula → Bool) (tables : List (List Formula))
    (size part : Nat) (st : List Formula × List Formula) (i : Nat) :
    List Formula × List Formula :=
  (List.range (tables.getD (size - part - 1) []).length).foldl
    (jStep oracle tables size part i ((tables.getD part []).getD i (.prop "p0")))
    st

/-- Loop over `i in range(len(formulae[part]))`. -/
def partStep (oracle : Formula → Bool) (tables : List (List Formula))
    (size : Nat) (st : List Formula × List Formula) (part : Nat) :
    List Formula × List Formula :=
  (List.range (tables.getD part []).length).foldl
    (iStep oracle tables size part) st

/-- One `size` iteration of `all_axioms`: scan every split
`part + (size - part - 1)` and feed the candidates; the fresh table
entry `formulae[size]` starts empty.  Returns the final
`(axioms, formulae[size])`. -/
def runLevel (oracle : Formula → Bool) (tables : List (List Formula))
    (axioms : List Formula) (size : Nat) : List Formula × List Formula :=
  (List.range size).foldl (partStep oracle tables size) (axioms, [])

/-- `all_axioms()` with the entailment test abstracted as `oracle`:
starting from `formulae = [[Prop("p0")]]` and no axioms, run the
levels `size = 1 … MAX_SIZE - 1`, appending each level's finished
table entry.  Returns `(formulae, axioms)`. -/
def allAxiomsTables (oracle : Formula → Bool) :
    List (List Formula) × List Formula :=
  (List.range' 1 (MAX_SIZE - 1)).foldl
    (fun st size =>
      let r := runLevel oracle st.1 st.2 size
      (st.1 ++ [r.2], r.1))
    ([[Formula.prop "p0"]], [])

/-- Elements produced during a fold whose step can only keep the
second component or append elements satisfying `P`. -/
theorem foldl_snd_mem {α : Type} (P : Formula → Prop)
    (g : List Formula × List Formula → α → List Formula × List Formula) :
    ∀ (l : List α),
      (∀ st2, ∀ a ∈ l, ∀ f2, f2 ∈ (g st2 a).2 → f2 ∈ st2.2 ∨ P f2) →
      ∀ st f, f ∈ (List.foldl g st l).2 → f ∈ st.2 ∨ P f := by
  intro l
  induction l with
  | nil => intro _ st f h; exact Or.inl h
  | cons a as ih =>
      intro hg st f h
      rw [List.foldl_cons] at h
      rcases ih (fun st2 b hb f2 h2 => hg st2 b (List.mem_cons_of_mem a hb) f2 h2)
          (g st a) f h with h1 | h1
      · exact hg st a (List.mem_cons_self a as) f h1
      · exact Or.inr h1

/-- `check_if_axiom` either keeps the current table entry or appends
exactly the candidate. -/
theorem checkIfAxiom_mem (oracle : Formula → Bool)
    (st : List Formula × List Formula) (c g : Formula)
    (h : g ∈ (checkIfAxiom oracle st c).2) : g ∈ st.2 ∨ g = c := by
  rw [checkIfAxiom] at h
  split at h
  · exact Or.inl h
  · split at h
    · exact Or.inl h
    · rcases List.mem_append.mp h with h1 | h1
      · exact Or.inl h1
      · exact Or.inr (List.mem_singleton.mp h1)

/-- A `getD` at an in-range index is a member. -/
theorem getD_mem_of_lt {l : List Formula} {i : Nat} (h : i < l.length)
    (d : Formula) : l.getD i d ∈ l := by
  rw [List.getD_eq_getElem?_getD, List.getElem?_eq_getElem h]
  exact List.getElem_mem h

/-- Everything the innermost loop body appends is one of the three
candidate shapes over `lhs` and a renaming of `rhs`. -/
theorem permStep_mem (oracle : Formula → Bool) (size part i j : Nat)
    (lhs rhs : Formula) (st : List Formula × List Formula)
    (perm : List Nat) (f : Formula)
    (h : f ∈ (permStep oracle size part i j lhs rhs st perm).2) :
    f ∈ st.2 ∨ ∃ rp, sizeF rp = sizeF rhs ∧
      (f = .implies lhs rp none ∨ f = .implies (.not_ lhs none) rp none ∨
        f = .implies lhs (.not_ rp none) none) := by
  rw [permStep] at h
  split at h
  · rcases checkIfAxiom_mem _ _ _ f h with h1 | rfl
    · split at h1
      · rcases checkIfAxiom_mem _ _ _ f h1 with h2 | rfl
        · rcases checkIfAxiom_mem _ _ _ f h2 with h3 | rfl
          · exact Or.inl h3
          · exact Or.inr ⟨applyPerm rhs perm, sizeF_applyPerm rhs perm,
              Or.inl rfl⟩
        · exact Or.inr ⟨applyPerm rhs perm, sizeF_applyPerm rhs perm,
            Or.inr (Or.inl rfl)⟩
      · rcases checkIfAxiom_mem _ _ _ f h1 with h2 | rfl
        · exact Or.inl h2
        · exact Or.inr ⟨applyPerm rhs perm, sizeF_applyPerm rhs perm,
            Or.inl rfl⟩
    · exact Or.inr ⟨applyPerm rhs perm, sizeF_applyPerm rhs perm,
        Or.inr (Or.inr rfl)⟩
  · split at h
    · rcases checkIfAxiom_mem _ _ _ f h with h2 | rfl
      · rcases checkIfAxiom_mem _ _ _ f h2 with h3 | rfl
        · exact Or.inl h3
        · exact Or.inr ⟨applyPerm rhs perm, sizeF_applyPerm rhs perm,
            Or.inl rfl⟩
      · exact Or.inr ⟨applyPerm rhs perm, sizeF_applyPerm rhs perm,
          Or.inr (Or.inl rfl)⟩
    · rcases checkIfAxiom_mem _ _ _ f h with h2 | rfl
      · exact Or.inl h2
      · exact Or.inr ⟨applyPerm rhs perm, sizeF_applyPerm rhs perm,
          Or.inl rfl⟩

/-- Everything the `perm` loop appends pairs a table `rhs` with a
same-size renaming. -/
theorem jStep_mem (oracle : Formula → Bool) (tables : List (List Formula))
    (size part i : Nat) (lhs : Formula) (st : List Formula × List Formula)
    (j : Nat) (hj : j < (tables.getD (size - part - 1) []).length)
    (f : Formula) (h : f ∈ (jStep oracle tables size part i lhs st j).2) :
    f ∈ st.2 ∨ ∃ rhs rp, rhs ∈ tables.getD (size - part - 1) [] ∧
      sizeF rp = sizeF rhs ∧
      (f = .implies lhs rp none ∨ f = .implies (.not_ lhs none) rp none ∨
        f = .implies lhs (.not_ rp none) none) := by
  rw [jStep] at h
  rcases foldl_snd_mem
      (fun g => ∃ rp,
        sizeF rp
          = sizeF ((tables.getD (size - part - 1) []).getD j (.prop "p0")) ∧
        (g = .implies lhs rp none ∨ g = .implies (.not_ lhs none) rp none ∨
          g = .implies lhs (.not_ rp none) none))
      _ _
      (fun st2 perm _ g hg => permStep_mem oracle size part i j lhs _ st2 perm g hg)
      st f h with h1 | h1
  · exact Or.inl h1
  · obtain ⟨rp, hrp, hsh⟩ := h1
    exact Or.inr ⟨_, rp, getD_mem_of_lt hj (.prop "p0"), hrp, hsh⟩

/-- Everything the `j` loop appends additionally picks its `rhs` from
the dual table entry. -/
theorem iStep_mem (oracle : Formula → Bool) (tables : List (List Formula))
    (size part : Nat) (st : List Formula × List Formula) (i : Nat)
    (hi : i < (tables.getD part []).length) (f : Formula)
    (h : f ∈ (iStep oracle tables size part st i).2) :
    f ∈ st.2 ∨ ∃ lhs rhs rp, lhs ∈ tables.getD part [] ∧
      rhs ∈ tables.getD (size - part - 1) [] ∧ sizeF rp = sizeF rhs ∧
      (f = .implies lhs rp none ∨ f = .implies (.not_ lhs none) rp none ∨
        f = .implies lhs (.not_ rp none) none) := by
  rw [iStep] at h
  rcases foldl_snd_mem
      (fun g => ∃ rhs rp, rhs ∈ tables.getD (size - part - 1) [] ∧
        sizeF rp = sizeF rhs ∧
        (g = .implies ((tables.getD part []).getD i (.prop "p0")) rp none ∨
          g = .implies (.not_ ((tables.getD part []).getD i (.prop "p0")) none)
            rp none ∨
          g = .implies ((tables.getD part []).getD i (.prop "p0"))
            (.not_ rp none) none))
      _ _
      (fun st2 j hj g hg =>
        jStep_mem oracle tables size part i _ st2 j (List.mem_range.mp hj) g hg)
      st f h with h1 | h1
  · exact Or.inl h1
  · obtain ⟨rhs, rp, hrm, hrp, hsh⟩ := h1
    exact Or.inr ⟨_, rhs, rp, getD_mem_of_lt hi (.prop "p0"), hrm, hrp, hsh⟩

/-- Everything the `i` loop appends picks its `lhs` from the `part`
table entry. -/
theorem partStep_mem (oracle : Formula → Bool) (tables : List (List Formula))
    (size : Nat) (st : List Formula × List Formula) (part : Nat) (f : Formula)
    (h : f ∈ (partStep oracle tables size st part).2) :
    f ∈ st.2 ∨ ∃ lhs rhs rp, lhs ∈ tables.getD part [] ∧
      rhs ∈ tables.getD (size - part - 1) [] ∧ sizeF rp = sizeF rhs ∧
      (f = .implies lhs rp none ∨ f = .implies (.not_ lhs none) rp none ∨
        f = .implies lhs (.not_ rp none) none) := by
  rw [partStep] at h
  rcases foldl_snd_mem
      (fun g => ∃ lhs rhs rp, lhs ∈ tables.getD part [] ∧
        rhs ∈ tables.getD (size - part - 1) [] ∧ sizeF rp = sizeF rhs ∧
        (g = .implies lhs rp none ∨ g = .implies (.not_ lhs none) rp none ∨
          g = .implies lhs (.not_ rp none) none))
      _ _
      (fun st2 i hi g hg =>
        iStep_mem oracle tables size part st2 i (List.mem_range.mp hi) g hg)
      st f h with h1 | h1
  · exact Or.inl h1
  · exact Or.inr h1

/-- Every formula in the level-`size` table entry decomposes as a
candidate over some split `part + (size - part - 1)` of the earlier
tables. -/
theorem runLevel_mem (oracle : Formula → Bool) (tables : List (List Formula))
    (axioms : List Formula) (size : Nat) (f : Formula)
    (hf : f ∈ (runLevel oracle tables axioms size).2) :
    ∃ part lhs rhs rp, part < size ∧ lhs ∈ tables.getD part [] ∧
      rhs ∈ tables.getD (size - part - 1) [] ∧ sizeF rp = sizeF rhs ∧
      (f = .implies lhs rp none ∨ f = .implies (.not_ lhs none) rp none ∨
        f = .implies lhs (.not_ rp none) none) := by
  rw [runLevel] at hf
  rcases foldl_snd_mem
      (fun g => ∃ part lhs rhs rp, part < size ∧ lhs ∈ tables.getD part [] ∧
        rhs ∈ tables.getD (size - part - 1) [] ∧ sizeF rp = sizeF rhs ∧
        (g = .implies lhs rp none ∨ g = .implies (.not_ lhs none) rp none ∨
          g = .implies lhs (.not_ rp none) none))
      _ _
      (fun st2 part hp g hg =>
        match partStep_mem oracle tables size st2 part g hg with
        | Or.inl h2 => Or.inl h2
        | Or.inr ⟨lhs, rhs, rp, hl, hr, hrp, hsh⟩ =>
            Or.inr ⟨part, lhs, rhs, rp, List.mem_range.mp hp, hl, hr, hrp, hsh⟩)
      (axioms, []) f hf with h1 | h1
  · exact absurd h1 (List.not_mem_nil f)
  · exact h1

/-- The size bounds carried by the enumerator's table: entry `s` holds
formulae of size between `s` and `2 s`. -/
def TableOK (tables : List (List Formula)) : Prop :=
  ∀ s f, f ∈ tables.getD s [] → s ≤ sizeF f ∧ sizeF f ≤ 2 * s

/-- Appending a finished level preserves the table size bounds. -/
theorem tableOK_step (oracle : Formula → Bool) (t : List (List Formula))
    (ax : List Formula) (size : Nat) (hsz : size = t.length)
    (hOK : TableOK t) :
    TableOK (t ++ [(runLevel oracle t ax size).2]) := by
  intro s f hf
  rcases lt_trichotomy s t.length with hs | hs | hs
  · rw [List.getD_eq_getElem?_getD, List.getElem?_append_left hs,
      ← List.getD_eq_getElem?_getD] at hf
    exact hOK s f hf
  · subst hs
    rw [List.getD_eq_getElem?_getD, List.getElem?_append_right le_rfl,
      Nat.sub_self, List.getElem?_cons_zero] at hf
    obtain ⟨part, lhs, rhs, rp, hpart, hl, hr, hrp, hsh⟩ :=
      runLevel_mem oracle t ax size f hf
    have h1 := hOK part lhs hl
    have h2 := hOK (size - part - 1) rhs hr
    rcases hsh with rfl | rfl | rfl
    · rw [show sizeF (Formula.implies lhs rp none)
          = 1 + (sizeF lhs + sizeF rp) from rfl]
      omega
    · rw [show sizeF (Formula.implies (Formula.not_ lhs none) rp none)
          = 1 + ((1 + sizeF lhs) + sizeF rp) from rfl]
      omega
    · rw [show sizeF (Formula.implies lhs (Formula.not_ rp none) none)
          = 1 + (sizeF lhs + (1 + sizeF rp)) from rfl]
      omega
  · rw [List.getD_eq_getElem?_getD, List.getElem?_eq_none] at hf
    · exact absurd hf (List.not_mem_nil f)
    · rw [List.length_append, List.length_singleton]
      omega

/-- C6 (counterexample): the claim that every formula stored in table
entry `F[s]` has structural size exactly `s` is false.  Under the
oracle that rejects every candidate — which agrees with the real
solver on the decisive prefix, since neither `Implies(p0, p1)` nor
`Implies(Not(p0), p1)` is a tautology — the level-1 entry `F[1]`
contains `Implies(Not(p0), p1)`, whose size is `2`, not `1`: the
guarded candidates `Implies(Not(lhs), rhs')` and
`Implies(lhs, Not(rhs'))` carry an extra `Not` node that the
bookkeeping ignores. -/
theorem c6_counterexample_oversized_in_table :
    (Formula.implies (.not_ (.prop "p0") none) (.prop "p1") none)
      ∈ (allAxiomsTables oracleFalse).1.getD 1 [] ∧
    sizeF (Formula.implies (.not_ (.prop "p0") none) (.prop "p1") none) ≠ 1 :=
  ⟨by decide, by decide⟩

/-- C6 (amended): for every entailment oracle, every formula stored by
the axiom enumerator in table entry `F[s]` has structural size between
`s` and `2 s` (with `size(Prop) = size(Const) = 0` and an operator
node counting `1` plus the sum of its operands' sizes).  The exact
value `s` is attained by the unguarded candidates and `s + 1` by the
`Not`-guarded ones; sizes above `s + 1` ratchet up through later
levels built from already-oversized entries. -/
theorem c6_table_size_bounds (oracle : Formula → Bool) (s : Nat) (f : Formula)
    (hf : f ∈ (allAxiomsTables oracle).1.getD s []) :
    s ≤ sizeF f ∧ sizeF f ≤ 2 * s := by
  have h0 : TableOK [[Formula.prop "p0"]] := by
    intro s0 f0 hf0
    cases s0 with
    | zero =>
        have hf1 : f0 ∈ [Formula.prop "p0"] := hf0
        rcases List.mem_singleton.mp hf1 with rfl
        decide
    | succ n => exact absurd hf0 (List.not_mem_nil f0)
  have h1 : TableOK ([[Formula.prop "p0"]]
      ++ [(runLevel oracle [[Formula.prop "p0"]] [] 1).2]) :=
    tableOK_step oracle [[Formula.prop "p0"]] [] 1 rfl h0
  have h2 := tableOK_step oracle
    ([[Formula.prop "p0"]] ++ [(runLevel oracle [[Formula.prop "p0"]] [] 1).2])
    (runLevel oracle [[Formula.prop "p0"]] [] 1).1 2 rfl h1
  have h3 := tableOK_step oracle
    (([[Formula.prop "p0"]] ++ [(runLevel oracle [[Formula.prop "p0"]] [] 1).2])
      ++ [(runLevel oracle
            ([[Formula.prop "p0"]]
              ++ [(runLevel oracle [[Formula.prop "p0"]] [] 1).2])
            (runLevel oracle [[Formula.prop "p0"]] [] 1).1 2).2])
    (runLevel oracle
      ([[Formula.prop "p0"]] ++ [(runLevel oracle [[Formula.prop "p0"]] [] 1).2])
      (runLevel oracle [[Formula.prop "p0"]] [] 1).1 2).1 3 rfl h2
  exact h3 s f hf

theorem c6_table_size_bounds_witness :
    (Formula.implies (.prop "p0") (.prop "p1") none)
      ∈ (allAxiomsTables oracleFalse).1.getD 1 [] ∧
    (1 ≤ sizeF (Formula.implies (.prop "p0") (.prop "p1") none) ∧
      sizeF (Formula.implies (.prop "p0") (.prop "p1") none) ≤ 2 * 1) :=
  ⟨by decide, c6_table_size_bounds oracleFalse 1 _ (by decide)⟩

end Socratic
